import Mathlib

/-!
# rlcs: partition refinement with split provenance

A shallow embedding of `src/main.cpp`.

Modelling conventions.
* A `Predicate *` handed out by `PredicateUniquer` is identified with the
  predicate value (one object per representation).
* A `Pattern *` is identified with the pattern value; `Pattern.preds` lists the
  members of the `unordered_set` in the order the inner loop visits them.
* A `ReferenceNode *` is an address, a natural number; `nullptr` is `none`.
  The vector `nodes` keeps its elements in a buffer: element `i` lives at
  address `base + i`, and the buffer has room for `cap` elements.  When
  `emplace_back` finds the buffer full, the elements move to a fresh buffer
  placed after the old one; pointers taken before then lie below the new `base`
  and dangle.
* A write through a dangling pointer (`cur->refs().erase(pred)` after the
  vector has moved) lands in freed storage and leaves the elements of the
  vector as they are; a read through a dangling pointer in the trace walk is
  undefined and is `none`.
* `nodes.reserve(K)` gives a buffer for exactly `K` elements, and a full
  buffer is replaced by one of twice the size.
* `unordered_map` lookups are functions into `Option`.
* Dereferencing a failed lookup or a null parent is undefined in the source and
  is `none` in the embedding.
-/

namespace Rlcs

/-- `class Predicate`: an atom identified by its `long` representation. -/
structure Predicate where
  repr : Int
deriving DecidableEq, Repr

/-- `class Pattern`: a name and the members, in inner-loop visiting order. -/
structure Pattern where
  name : String
  preds : List Predicate
deriving DecidableEq, Repr

/-- `class ReferenceNode`: `m_parent` (an address), `m_diff`, `m_refs`. -/
structure ReferenceNode where
  parent : Option Nat
  diff : Option Pattern
  refs : Finset Predicate

instance : DecidableEq ReferenceNode := fun a b =>
  decidable_of_iff (a.parent = b.parent ∧ a.diff = b.diff ∧ a.refs = b.refs)
    (by cases a; cases b; simp)

/-- The mutable state of the two loops of `rlcs`: the elements of the `nodes`
vector, the address `base` of its first element, its capacity `cap`, the
`occur` map and the per-pattern `cache` map (both hold addresses). -/
structure LoopState where
  nodes : List ReferenceNode
  base : Nat
  cap : Nat
  occur : Predicate → Option Nat
  cache : Nat → Option Nat

/-- The sum `K` computed by the first loop of `rlcs` and passed to
`nodes.reserve`. -/
def reserveRequest (patterns : List Pattern) : Nat :=
  patterns.foldl (fun K pattern => K + pattern.preds.length) 0

/-- Apply `f` to the `refs()` of the element of index `i`. -/
def modifyRefs (f : Finset Predicate → Finset Predicate) :
    Nat → List ReferenceNode → List ReferenceNode
  | _, [] => []
  | 0, n :: ns => { n with refs := f n.refs } :: ns
  | i + 1, n :: ns => n :: modifyRefs f i ns

/-- The node a pointer designates, `*ptr`: element `addr - base` of the
vector; nothing when the address lies in a freed buffer or past the end. -/
def LoopState.nodeAt (st : LoopState) (addr : Nat) : Option ReferenceNode :=
  if st.base ≤ addr then st.nodes[addr - st.base]? else none

/-- The elements of the vector of `st` after `ptr->refs().op(..)`, `f` being
the operation: a pointer into the current buffer changes that element, a
dangling one changes none. -/
def modifyAt (f : Finset Predicate → Finset Predicate) (st : LoopState)
    (addr : Nat) (nodes : List ReferenceNode) : List ReferenceNode :=
  if st.base ≤ addr then modifyRefs f (addr - st.base) nodes else nodes

/-- State after `nodes.reserve(K)` and `nodes.emplace_back(nullptr, nullptr)`:
the empty root at address `0`, in a buffer for `K` elements (for one element
when `K = 0`), and an empty `occur`. -/
def rootState (K : Nat) : LoopState :=
  { nodes := [⟨none, none, ∅⟩], base := 0, cap := max K 1,
    occur := fun _ => none, cache := fun _ => none }

/-- One iteration of the loop over `preds`: `occur.emplace(&pred, root)`
(which keeps an existing entry) and `root->refs().insert(&pred)`; `root` is
address `0`. -/
def initStep (st : LoopState) (pred : Predicate) : LoopState :=
  { st with
    occur := match st.occur pred with
      | some _ => st.occur
      | none => fun q => if q = pred then some 0 else st.occur q
    nodes := modifyAt (fun r => insert pred r) st 0 st.nodes }

/-- State when the refinement loop starts, `K` being the sum passed to
`reserve`. -/
def initState (K : Nat) (preds : List Predicate) : LoopState :=
  preds.foldl initStep (rootState K)

/-- The cache-miss branch: `diff = &nodes.emplace_back(cur, &pattern)` and
`cache.emplace(cur, diff)`.  The new node is the last element; when the buffer
is full all elements move to a fresh buffer first. -/
def pushChild (pattern : Pattern) (st : LoopState) (cur : Nat) : LoopState :=
  if st.nodes.length < st.cap then
    { st with
      nodes := st.nodes ++ [⟨some cur, some pattern, ∅⟩]
      cache := fun c => if c = cur then some (st.base + st.nodes.length) else st.cache c }
  else
    { st with
      nodes := st.nodes ++ [⟨some cur, some pattern, ∅⟩]
      base := st.base + st.cap
      cap := 2 * st.cap
      cache := fun c =>
        if c = cur then some (st.base + st.cap + st.nodes.length) else st.cache c }

/-- The three updates that end an inner iteration:
`occur.insert_or_assign(curIt, pred, diff)`, `cur->refs().erase(pred)`,
`diff->refs().insert(pred)`. -/
def relocate (st : LoopState) (pred : Predicate) (cur diff : Nat) : LoopState :=
  { st with
    nodes := modifyAt (fun r => insert pred r) st diff
      (modifyAt (fun r => r.erase pred) st cur st.nodes)
    occur := fun q => if q = pred then some diff else st.occur q }

/-- One iteration of the inner loop of `rlcs` (source lines 166-181).  A
predicate without an entry in `occur` makes `curIt` the end iterator, whose
dereference is undefined: `none`.  On a cache miss `diff` is the address of
the element that `emplace_back` returns, the last one of the vector. -/
def moveStep (pattern : Pattern) (st : LoopState) (pred : Predicate) :
    Option LoopState :=
  match st.occur pred with
  | none => none
  | some cur =>
    match st.cache cur with
    | none =>
      some (relocate (pushChild pattern st cur) pred cur
        ((pushChild pattern st cur).base + st.nodes.length))
    | some diff => some (relocate st pred cur diff)

/-- The inner loop over a list of members, with the cache as it stands. -/
def processPreds (pattern : Pattern) (st : LoopState) (members : List Predicate) :
    Option LoopState :=
  members.foldlM (moveStep pattern) st

/-- A fresh `cache` is declared at the top of each outer iteration. -/
def freshCache (st : LoopState) : LoopState :=
  { st with cache := fun _ => none }

/-- One iteration of the outer loop: a fresh cache, then every member. -/
def processPattern (st : LoopState) (pattern : Pattern) : Option LoopState :=
  processPreds pattern (freshCache st) pattern.preds

/-- The outer loop over the patterns. -/
def processPatterns (st : LoopState) (patterns : List Pattern) :
    Option LoopState :=
  patterns.foldlM processPattern st

/-- State of a run of `rlcs` whose patterns have `K` members in all, once the
patterns `done` have been processed. -/
def refineTo (K : Nat) (preds : List Predicate) (done : List Pattern) :
    Option LoopState :=
  processPatterns (initState K preds) done

/-- State of `rlcs` when the refinement loop has finished. -/
def refine (preds : List Predicate) (patterns : List Pattern) :
    Option LoopState :=
  refineTo (reserveRequest patterns) preds patterns

/-- State of a run of `rlcs` whose patterns have `K` members in all, inside
the pass of `pattern`: the patterns `done` have been processed completely and
the members `visited` of `pattern` have been moved. -/
def stateAt (K : Nat) (preds : List Predicate) (done : List Pattern)
    (pattern : Pattern) (visited : List Predicate) : Option LoopState :=
  (refineTo K preds done).bind fun st => processPreds pattern (freshCache st) visited

/-- The loop `while (cur->diff()) { trace.push_back(cur->diff()); cur =
cur->parent(); }` started at the node of address `cur`, with at most `fuel`
iterations. -/
def traceWalk (st : LoopState) : Nat → Nat → Option (List Pattern)
  | fuel, cur =>
    match st.nodeAt cur with
    | none => none
    | some node =>
      match node.diff with
      | none => some []
      | some pattern =>
        match fuel with
        | 0 => none
        | fuel + 1 =>
          match node.parent with
          | none => none
          | some parent => (traceWalk st fuel parent).map fun t => pattern :: t

/-- One printed line: the trace and the members of a node. -/
structure Row where
  trace : List Pattern
  members : Finset Predicate

instance : DecidableEq Row := fun a b =>
  decidable_of_iff (a.trace = b.trace ∧ a.members = b.members)
    (by cases a; cases b; simp)

/-- Body of the reporting loop for the element of index `i`, `out` being the
lines printed so far: an empty node is skipped, any other node adds its line. -/
def reportStep (st : LoopState) (out : List Row) (i : Nat) :
    Option (List Row) :=
  match st.nodes[i]? with
  | none => none
  | some node =>
    if node.refs = ∅ then some out
    else
      match traceWalk st st.nodes.length (st.base + i) with
      | none => none
      | some trace => some (out ++ [⟨trace, node.refs⟩])

/-- The reporting loop: the elements from `rbegin` to `rend`. -/
def report (st : LoopState) : Option (List Row) :=
  (List.range st.nodes.length).reverse.foldlM (reportStep st) []

/-- The function `rlcs`: the lines it prints, in order. -/
def rlcs (preds : List Predicate) (patterns : List Pattern) :
    Option (List Row) :=
  (refine preds patterns).bind report

/-! ## The demonstration in `main` -/

def predA : Predicate := ⟨65⟩
def predB : Predicate := ⟨66⟩
def predC : Predicate := ⟨67⟩
def predD : Predicate := ⟨68⟩
def predE : Predicate := ⟨69⟩

def demoPreds : List Predicate := [predA, predB, predC, predD, predE]

def patP1 : Pattern := ⟨"P1", [predA, predB, predC]⟩
def patP2 : Pattern := ⟨"P2", [predA, predB, predD]⟩
def patP3 : Pattern := ⟨"P3", [predC, predD, predE]⟩

def demoPatterns : List Pattern := [patP1, patP2, patP3]

/-! ## Inputs on which every member visit is a cache miss -/

/-- The pattern `Q1 = {A}`. -/
def patQ1 : Pattern := ⟨"Q1", [predA]⟩

/-- The pattern `Q2 = {A, B}`, `A` visited first. -/
def patQ2 : Pattern := ⟨"Q2", [predA, predB]⟩

/-- The pattern `Q2` with `B` visited first. -/
def patQ2r : Pattern := ⟨"Q2", [predB, predA]⟩

/-! ## Specification vocabulary -/

/-- Every member of every pattern is a registered predicate. -/
def MembersWithin (preds : List Predicate) (patterns : List Pattern) : Prop :=
  ∀ P ∈ patterns, ∀ e ∈ P.preds, e ∈ preds

instance (preds : List Predicate) (patterns : List Pattern) :
    Decidable (MembersWithin preds patterns) :=
  inferInstanceAs (Decidable (∀ P ∈ patterns, ∀ e ∈ P.preds, e ∈ preds))

/-- The member list of every pattern enumerates a set: no predicate twice. -/
def SetLike (patterns : List Pattern) : Prop :=
  ∀ P ∈ patterns, P.preds.Nodup

instance (patterns : List Pattern) : Decidable (SetLike patterns) :=
  inferInstanceAs (Decidable (∀ P ∈ patterns, P.preds.Nodup))

/-- The member sets of the nodes are pairwise disjoint and cover exactly the
registered predicates. -/
def Partition (preds : List Predicate) (nodes : List ReferenceNode) : Prop :=
  (∀ (i j : Nat) (ni nj : ReferenceNode), nodes[i]? = some ni → nodes[j]? = some nj → i ≠ j →
      Disjoint ni.refs nj.refs) ∧
  (∀ e, e ∈ preds ↔ ∃ n ∈ nodes, e ∈ n.refs)

/-- Two predicates are members of one and the same node. -/
def SameNode (nodes : List ReferenceNode) (e1 e2 : Predicate) : Prop :=
  ∃ (i : Nat) (n : ReferenceNode), nodes[i]? = some n ∧ e1 ∈ n.refs ∧ e2 ∈ n.refs

/-- No two distinct nodes have the same parent and the same originating
pattern. -/
def SingleChild (nodes : List ReferenceNode) : Prop :=
  ∀ (i j : Nat) (ni nj : ReferenceNode), nodes[i]? = some ni → nodes[j]? = some nj →
    ni.parent = nj.parent → ni.diff = nj.diff → i = j

/-- The owner map agrees with the member sets: its domain is the set of
registered predicates, and it holds the address of a node for a predicate
exactly when the predicate is a member of that node. -/
def OwnerConsistent (preds : List Predicate) (st : LoopState) : Prop :=
  (∀ e, e ∈ preds ↔ ∃ a, st.occur e = some a) ∧
  (∀ (e : Predicate) (i : Nat) (n : ReferenceNode), st.nodes[i]? = some n →
    (st.occur e = some (st.base + i) ↔ e ∈ n.refs))

/-- Every node of `s0` is still there in `s1`, at the same index, with the same
parent and originating pattern and with no member it did not have. -/
def Later (s0 s1 : LoopState) : Prop :=
  ∀ (i : Nat) (n0 : ReferenceNode), s0.nodes[i]? = some n0 →
    ∃ n1, s1.nodes[i]? = some n1 ∧ n1.parent = n0.parent ∧ n1.diff = n0.diff ∧
      n1.refs ⊆ n0.refs

/-! ## Invariants of a run while the vector has not moved -/

/-- Member set of node `j` once `pred` has been erased from node `cur` and
inserted into node `diff`. -/
def movedRefs (pred : Predicate) (cur diff j : Nat) (r : Finset Predicate) :
    Finset Predicate :=
  if j = diff then insert pred (if j = cur then r.erase pred else r)
  else if j = cur then r.erase pred else r

/-- Consistency of the loop state while the vector is in its first buffer
(addresses are indices): `occur` sends a predicate to the node whose member
set holds it, its domain is the set of registered predicates, and the cache
only names existing nodes. -/
structure Inv (preds : List Predicate) (st : LoopState) : Prop where
  base0 : st.base = 0
  capGe : st.nodes.length ≤ st.cap
  occ : ∀ e i, st.occur e = some i ↔ ∃ n, st.nodes[i]? = some n ∧ e ∈ n.refs
  dom : ∀ e, e ∈ preds ↔ ∃ i, st.occur e = some i
  cacheLt : ∀ c d, st.cache c = some d → d < st.nodes.length

/-- What an inner iteration does to the state when the vector stays where it
is: `pred` leaves node `cur` for node `diff`, which is either the cached child
of `cur` or a node appended for the purpose. -/
structure StepRel (pattern : Pattern) (st : LoopState) (pred : Predicate)
    (st' : LoopState) (cur diff : Nat) : Prop where
  occ0 : st.occur pred = some cur
  curLt : cur < st.nodes.length
  cap1 : st'.cap = st.cap
  occ1 : ∀ q, st'.occur q = if q = pred then some diff else st.occur q
  cache1 : ∀ c, st'.cache c = if c = cur then some diff else st.cache c
  kind : (st.cache cur = some diff ∧ diff < st.nodes.length ∧
            st'.nodes.length = st.nodes.length) ∨
         (st.cache cur = none ∧ diff = st.nodes.length ∧
            st'.nodes.length = st.nodes.length + 1)
  keep : ∀ (j : Nat) (n : ReferenceNode), st.nodes[j]? = some n →
    st'.nodes[j]? = some ⟨n.parent, n.diff, movedRefs pred cur diff j n.refs⟩
  origin : ∀ (j : Nat) (n' : ReferenceNode), st'.nodes[j]? = some n' →
    (∃ n, st.nodes[j]? = some n ∧
        n' = ⟨n.parent, n.diff, movedRefs pred cur diff j n.refs⟩) ∨
      (st.cache cur = none ∧ j = st.nodes.length ∧
        n' = ⟨some cur, some pattern, {pred}⟩)

/-- What an inner iteration does to the state when its `emplace_back` finds
the buffer full: the vector moves, a child of `cur` holding `pred` is
appended, `pred` stays in the node it was in, and `occur` gets the address of
the child in the new buffer. -/
structure MovedRel (pattern : Pattern) (st : LoopState) (pred : Predicate)
    (st' : LoopState) (cur : Nat) : Prop where
  occ0 : st.occur pred = some cur
  curLt : cur < st.nodes.length
  miss : st.cache cur = none
  full : st.nodes.length = st.cap
  nodes1 : st'.nodes = st.nodes ++ [⟨some cur, some pattern, {pred}⟩]
  base1 : st'.base = st.cap
  occ1 : ∀ q, st'.occur q =
    if q = pred then some (st.cap + st.nodes.length) else st.occur q

/-- Shape of the parent links: node `0` is the root, with null parent and null
originating pattern; every other node has an originating pattern and a parent
created before it. -/
structure Shape (st : LoopState) : Prop where
  root : ∃ r, st.nodes[0]? = some r ∧ r.parent = none ∧ r.diff = none
  child : ∀ (i : Nat) (n : ReferenceNode), st.nodes[i]? = some n → 0 < i →
    ∃ j p, n.parent = some j ∧ j < i ∧ n.diff = some p

/-- Relation between the state `s0` at the start of the pass of `pattern` and
the state `st` after `k` of its members have been moved. -/
structure Pass (pattern : Pattern) (s0 : LoopState) (k : Nat) (st : LoopState) :
    Prop where
  lenGe : s0.nodes.length ≤ st.nodes.length
  lenLe : st.nodes.length ≤ s0.nodes.length + k
  capEq : st.cap = s0.cap
  old : ∀ (i : Nat) (n0 : ReferenceNode), s0.nodes[i]? = some n0 →
    ∃ n, st.nodes[i]? = some n ∧ n.parent = n0.parent ∧ n.diff = n0.diff ∧
      n.refs ⊆ n0.refs
  cacheNew : ∀ c d, st.cache c = some d → s0.nodes.length ≤ d ∧ c < d ∧
    ∃ n, st.nodes[d]? = some n ∧ n.parent = some c ∧ n.diff = some pattern
  fresh : ∀ (i : Nat) (n : ReferenceNode), st.nodes[i]? = some n →
    s0.nodes.length ≤ i →
    ∃ c, st.cache c = some i ∧ n.parent = some c ∧ n.diff = some pattern

/-- Where the predicates are during a pass whose visited members are pairwise
distinct: an unvisited one is where it was, a visited one is in the cached
child of the node it was in. -/
structure PassSet (s0 : LoopState) (visited : List Predicate) (st : LoopState) :
    Prop where
  unvisited : ∀ e, e ∉ visited → st.occur e = s0.occur e
  moved : ∀ e ∈ visited, ∃ c d, s0.occur e = some c ∧ st.cache c = some d ∧
    st.occur e = some d
  cacheOld : ∀ c d, st.cache c = some d → ∃ e ∈ visited, s0.occur e = some c

/-- Every member of the originating pattern of a node sits in a node created
after the parent of that node. -/
def Ahead (st : LoopState) : Prop :=
  ∀ (m : Nat) (nm : ReferenceNode) (c : Nat) (Q : Pattern),
    st.nodes[m]? = some nm → nm.parent = some c → nm.diff = some Q →
    ∀ e ∈ Q.preds, ∀ k, st.occur e = some k → c < k

/-! ## The two uniquing stores -/

/-- `unordered_map::find` on the entries of a map, kept as a list of key-value
pairs: the value stored under `key`, if any. -/
def findEntry {κ β : Type} [DecidableEq κ] (key : κ) : List (κ × β) → Option β
  | [] => none
  | kv :: rest => if kv.1 = key then some kv.2 else findEntry key rest

/-- `class PredicateUniquer`: the map `preds` from representation to
predicate. -/
structure PredicateUniquer where
  preds : List (Int × Predicate)
deriving DecidableEq

/-- `PredicateUniquer::get`: the stored predicate when `find` succeeds,
otherwise `preds.emplace(repr, Predicate{repr})` and the new predicate. -/
def PredicateUniquer.get (u : PredicateUniquer) (r : Int) :
    Predicate × PredicateUniquer :=
  match findEntry r u.preds with
  | some p => (p, u)
  | none => (⟨r⟩, ⟨u.preds ++ [(r, ⟨r⟩)]⟩)

/-- `PredicateUniquer::size`. -/
def PredicateUniquer.size (u : PredicateUniquer) : Nat :=
  u.preds.length

/-- What `get`, the only function that writes to the map, maintains: every
predicate is stored under its own representation. -/
def PredicateUniquer.Keyed (u : PredicateUniquer) : Prop :=
  ∀ kv ∈ u.preds, kv.2.repr = kv.1

instance (u : PredicateUniquer) : Decidable u.Keyed :=
  inferInstanceAs (Decidable (∀ kv ∈ u.preds, kv.2.repr = kv.1))

/-- `class PatternUniquer`: the map `patterns` from name to pattern. -/
structure PatternUniquer where
  patterns : List (String × Pattern)
deriving DecidableEq

/-- `PatternUniquer::get`: the stored pattern when `find` succeeds (the member
set passed is dropped), otherwise a new pattern, stored under its name. -/
def PatternUniquer.get (u : PatternUniquer) (name : String)
    (preds : List Predicate) : Pattern × PatternUniquer :=
  match findEntry name u.patterns with
  | some p => (p, u)
  | none =>
    let pattern : Pattern := ⟨name, preds⟩
    (pattern, ⟨u.patterns ++ [(pattern.name, pattern)]⟩)

/-- `PatternUniquer::size`. -/
def PatternUniquer.size (u : PatternUniquer) : Nat :=
  u.patterns.length

/-- The catalog after a series of calls of `get`, results dropped. -/
def PatternUniquer.register (u : PatternUniquer)
    (calls : List (String × List Predicate)) : PatternUniquer :=
  calls.foldl (fun v call => (v.get call.1 call.2).2) u

/-! ## Elementary facts about the node vector -/

theorem length_modifyRefs (f : Finset Predicate → Finset Predicate) :
    ∀ (i : Nat) (l : List ReferenceNode), (modifyRefs f i l).length = l.length
  | 0, [] => rfl
  | _ + 1, [] => rfl
  | 0, _ :: _ => rfl
  | i + 1, _ :: ns => by simp [modifyRefs, length_modifyRefs f i ns]

theorem getElem?_modifyRefs (f : Finset Predicate → Finset Predicate) :
    ∀ (i j : Nat) (l : List ReferenceNode),
      (modifyRefs f i l)[j]? =
        (l[j]?).map fun n => if j = i then { n with refs := f n.refs } else n
  | _, _, [] => by simp [modifyRefs]
  | 0, 0, _ :: _ => by simp [modifyRefs]
  | 0, j + 1, _ :: ns => by
      simp only [modifyRefs, List.getElem?_cons_succ]
      cases ns[j]? <;> simp
  | i + 1, 0, _ :: _ => by simp [modifyRefs]
  | i + 1, j + 1, _ :: ns => by
      simp only [modifyRefs, List.getElem?_cons_succ, getElem?_modifyRefs f i j ns]
      cases ns[j]? <;> simp

theorem mem_movedRefs {pred x : Predicate} {cur diff j : Nat} {r : Finset Predicate} :
    x ∈ movedRefs pred cur diff j r ↔
      (x = pred ∧ (j = diff ∨ (j ≠ cur ∧ pred ∈ r))) ∨ (x ≠ pred ∧ x ∈ r) := by
  unfold movedRefs
  by_cases hd : j = diff
  · subst hd
    by_cases hc : j = cur
    · subst hc
      by_cases hx : x = pred <;> simp [hx]
    · by_cases hx : x = pred <;> simp [hx, hc]
  · by_cases hc : j = cur
    · subst hc
      by_cases hx : x = pred <;> simp [hx, hd]
    · by_cases hx : x = pred <;> simp [hx, hc, hd]

theorem length_modifyAt (f : Finset Predicate → Finset Predicate) (st : LoopState)
    (a : Nat) (l : List ReferenceNode) : (modifyAt f st a l).length = l.length := by
  unfold modifyAt
  split
  · exact length_modifyRefs f _ l
  · rfl

theorem modifyAt_base0 (f : Finset Predicate → Finset Predicate) {st : LoopState}
    (hb : st.base = 0) (a : Nat) (l : List ReferenceNode) :
    modifyAt f st a l = modifyRefs f a l := by
  simp [modifyAt, hb]

theorem relocate_getElem? (st : LoopState) (hb : st.base = 0) (pred : Predicate)
    (cur diff j : Nat) :
    (relocate st pred cur diff).nodes[j]? =
      (st.nodes[j]?).map fun n => ⟨n.parent, n.diff, movedRefs pred cur diff j n.refs⟩ := by
  simp only [relocate, modifyAt_base0 _ hb, getElem?_modifyRefs]
  cases st.nodes[j]? with
  | none => rfl
  | some n =>
    by_cases hd : j = diff
    · subst hd
      by_cases hc : j = cur
      · subst hc
        simp [movedRefs]
      · simp [movedRefs, hc]
    · by_cases hc : j = cur
      · subst hc
        simp [movedRefs, hd]
      · simp [movedRefs, hc, hd]

theorem relocate_length (st : LoopState) (pred : Predicate) (cur diff : Nat) :
    (relocate st pred cur diff).nodes.length = st.nodes.length := by
  simp [relocate, length_modifyAt]

theorem relocate_some {st : LoopState} (hb : st.base = 0) {pred : Predicate}
    {cur diff j : Nat} {n' : ReferenceNode} :
    (relocate st pred cur diff).nodes[j]? = some n' ↔
      ∃ n, st.nodes[j]? = some n ∧
        n' = ⟨n.parent, n.diff, movedRefs pred cur diff j n.refs⟩ := by
  rw [relocate_getElem? st hb]
  cases st.nodes[j]? with
  | none => simp
  | some n => simp [eq_comm]

theorem pushChild_nodes (pattern : Pattern) (st : LoopState) (cur : Nat) :
    (pushChild pattern st cur).nodes = st.nodes ++ [⟨some cur, some pattern, ∅⟩] := by
  unfold pushChild
  split <;> rfl

theorem pushChild_occur (pattern : Pattern) (st : LoopState) (cur : Nat) :
    (pushChild pattern st cur).occur = st.occur := by
  unfold pushChild
  split <;> rfl

theorem pushChild_length (pattern : Pattern) (st : LoopState) (cur : Nat) :
    (pushChild pattern st cur).nodes.length = st.nodes.length + 1 := by
  simp [pushChild_nodes]

/-- With room in the buffer the new node is appended in place. -/
theorem pushChild_room (pattern : Pattern) (st : LoopState) (cur : Nat)
    (hb : st.base = 0) (hroom : st.nodes.length < st.cap) :
    (pushChild pattern st cur).base = 0 ∧ (pushChild pattern st cur).cap = st.cap ∧
      (pushChild pattern st cur).cache =
        fun c => if c = cur then some st.nodes.length else st.cache c := by
  unfold pushChild
  simp [hroom, hb]

/-- With a full buffer the vector moves to the addresses from `cap` on. -/
theorem pushChild_full (pattern : Pattern) (st : LoopState) (cur : Nat)
    (hb : st.base = 0) (hfull : ¬ st.nodes.length < st.cap) :
    (pushChild pattern st cur).base = st.cap := by
  unfold pushChild
  simp [hfull, hb]

theorem pushChild_some {pattern : Pattern} {st : LoopState} {cur j : Nat}
    {n : ReferenceNode} :
    (pushChild pattern st cur).nodes[j]? = some n ↔
      st.nodes[j]? = some n ∨
        (j = st.nodes.length ∧ n = ⟨some cur, some pattern, ∅⟩) := by
  simp only [pushChild_nodes, List.getElem?_append]
  by_cases hj : j < st.nodes.length
  · simp only [hj, if_true]
    constructor
    · intro h; exact Or.inl h
    · rintro (h | ⟨h, -⟩)
      · exact h
      · omega
  · simp only [hj, if_false]
    have hnone : st.nodes[j]? = none := List.getElem?_eq_none (by omega)
    by_cases hj2 : j = st.nodes.length
    · subst hj2
      simp [hnone, eq_comm]
    · have : 0 < j - st.nodes.length := by omega
      obtain ⟨k, hk⟩ : ∃ k, j - st.nodes.length = k + 1 := ⟨j - st.nodes.length - 1, by omega⟩
      simp [hk, hnone, hj2]

theorem getElem?_lt {l : List ReferenceNode} {i : Nat} {n : ReferenceNode}
    (h : l[i]? = some n) : i < l.length := by
  by_contra hcon
  rw [List.getElem?_eq_none (by omega)] at h
  cases h

/-! ## Initialisation -/

theorem initState_fold (l : List Predicate) :
    ∀ (st : LoopState) (F : Finset Predicate),
      st.base = 0 →
      st.nodes = [⟨none, none, F⟩] →
      (∀ e, st.occur e = if e ∈ F then some 0 else none) →
      (l.foldl initStep st).nodes = [⟨none, none, F ∪ l.toFinset⟩] ∧
      (∀ e, (l.foldl initStep st).occur e =
        if e ∈ F ∪ l.toFinset then some 0 else none) ∧
      (l.foldl initStep st).cache = st.cache ∧
      (l.foldl initStep st).base = 0 ∧
      (l.foldl initStep st).cap = st.cap := by
  induction l with
  | nil => intro st F hb hn ho; simp [hn, ho, hb]
  | cons a l ih =>
    intro st F hb hn ho
    have hn' : (initStep st a).nodes = [⟨none, none, insert a F⟩] := by
      simp [initStep, hn, modifyAt, hb, modifyRefs]
    have hb' : (initStep st a).base = 0 := hb
    have ho' : ∀ e, (initStep st a).occur e = if e ∈ insert a F then some 0 else none := by
      intro e
      simp only [initStep]
      by_cases ha : a ∈ F
      · rw [ho a]
        simp only [ha, if_true, ho e, Finset.mem_insert]
        by_cases hea : e = a
        · subst hea; simp [ha]
        · simp [hea]
      · rw [ho a]
        simp only [ha, if_false, Finset.mem_insert, ho e]
        by_cases hea : e = a
        · simp [hea]
        · simp [hea]
    obtain ⟨h1, h2, h3, h4, h5⟩ := ih (initStep st a) (insert a F) hb' hn' ho'
    simp only [List.foldl_cons, List.toFinset_cons]
    refine ⟨?_, ?_, ?_, h4, ?_⟩
    · rw [h1]; congr 2; ext x
      simp only [Finset.mem_union, Finset.mem_insert]; tauto
    · intro e; rw [h2 e]
      have : (e ∈ insert a F ∪ l.toFinset) ↔ (e ∈ F ∪ insert a l.toFinset) := by
        simp only [Finset.mem_union, Finset.mem_insert]; tauto
      simp only [this]
    · rw [h3]; rfl
    · rw [h5]; rfl

theorem initState_nodes (K : Nat) (preds : List Predicate) :
    (initState K preds).nodes = [⟨none, none, preds.toFinset⟩] := by
  have h := (initState_fold preds (rootState K) ∅ rfl rfl
    (by intro e; simp [rootState])).1
  simpa [initState] using h

theorem initState_occur (K : Nat) (preds : List Predicate) (e : Predicate) :
    (initState K preds).occur e = if e ∈ preds then some 0 else none := by
  have h := (initState_fold preds (rootState K) ∅ rfl rfl
    (by intro e; simp [rootState])).2.1 e
  simpa [initState] using h

theorem initState_cache (K : Nat) (preds : List Predicate) (c : Nat) :
    (initState K preds).cache c = none := by
  have h := (initState_fold preds (rootState K) ∅ rfl rfl
    (by intro e; simp [rootState])).2.2.1
  show (List.foldl initStep (rootState K) preds).cache c = none
  rw [h]; rfl

theorem initState_base (K : Nat) (preds : List Predicate) :
    (initState K preds).base = 0 :=
  (initState_fold preds (rootState K) ∅ rfl rfl (by intro e; simp [rootState])).2.2.2.1

theorem initState_cap (K : Nat) (preds : List Predicate) :
    (initState K preds).cap = max K 1 :=
  (initState_fold preds (rootState K) ∅ rfl rfl (by intro e; simp [rootState])).2.2.2.2

theorem Inv_initState (K : Nat) (preds : List Predicate) :
    Inv preds (initState K preds) := by
  refine ⟨initState_base K preds, ?_, ?_, ?_, ?_⟩
  · rw [initState_nodes, initState_cap]
    simp
  · intro e i
    rw [initState_occur, initState_nodes]
    cases i with
    | zero => by_cases he : e ∈ preds <;> simp [he]
    | succ k => by_cases he : e ∈ preds <;> simp [he]
  · intro e
    rw [initState_occur]
    by_cases he : e ∈ preds <;> simp [he]
  · intro c d h
    rw [initState_cache] at h
    cases h

/-! ## Consistency is kept by every move that leaves the vector in place -/

theorem Inv.occ_lt {preds : List Predicate} {st : LoopState} (h : Inv preds st)
    {e : Predicate} {i : Nat} (ho : st.occur e = some i) : i < st.nodes.length := by
  obtain ⟨n, hn, -⟩ := (h.occ e i).1 ho
  exact getElem?_lt hn

theorem Inv_freshCache {preds : List Predicate} {st : LoopState} (h : Inv preds st) :
    Inv preds (freshCache st) :=
  ⟨h.base0, h.capGe, h.occ, h.dom, by intro c d hc; cases hc⟩

theorem Inv_pushChild {preds : List Predicate} {st : LoopState} (h : Inv preds st)
    (pattern : Pattern) (cur : Nat) (hroom : st.nodes.length < st.cap) :
    Inv preds (pushChild pattern st cur) := by
  obtain ⟨hb, hcap, hcache⟩ := pushChild_room pattern st cur h.base0 hroom
  refine ⟨hb, ?_, ?_, ?_, ?_⟩
  · rw [pushChild_length, hcap]; omega
  · intro e i
    rw [pushChild_occur]
    constructor
    · intro ho
      obtain ⟨n, hn, he⟩ := (h.occ e i).1 ho
      exact ⟨n, pushChild_some.2 (Or.inl hn), he⟩
    · rintro ⟨n, hn, he⟩
      rcases pushChild_some.1 hn with hn | ⟨-, rfl⟩
      · exact (h.occ e i).2 ⟨n, hn, he⟩
      · simp at he
  · rw [pushChild_occur]; exact h.dom
  · intro c d hc
    rw [pushChild_length]
    rw [hcache] at hc
    by_cases hcc : c = cur
    · simp only [hcc, if_true, Option.some.injEq] at hc; omega
    · simp only [hcc, if_false] at hc
      have := h.cacheLt c d hc
      omega

theorem Inv_relocate {preds : List Predicate} {st : LoopState} (h : Inv preds st)
    {pred : Predicate} {cur diff : Nat} (ho : st.occur pred = some cur)
    (hd : diff < st.nodes.length) : Inv preds (relocate st pred cur diff) := by
  have hb := h.base0
  refine ⟨hb, by rw [relocate_length]; exact h.capGe, ?_, ?_, ?_⟩
  · intro x i
    by_cases hx : x = pred
    · subst hx
      have hocc : (relocate st x cur diff).occur x = some diff := by
        simp [relocate]
      rw [hocc]
      constructor
      · intro hi
        simp only [Option.some.injEq] at hi
        subst hi
        obtain ⟨n, hn⟩ : ∃ n, st.nodes[diff]? = some n :=
          ⟨_, List.getElem?_eq_getElem hd⟩
        exact ⟨_, (relocate_some hb).2 ⟨n, hn, rfl⟩,
          mem_movedRefs.2 (Or.inl ⟨rfl, Or.inl rfl⟩)⟩
      · rintro ⟨n', hn', hmem⟩
        obtain ⟨n, hn, rfl⟩ := (relocate_some hb).1 hn'
        rcases mem_movedRefs.1 hmem with ⟨-, hi | ⟨hne, hin⟩⟩ | ⟨hne, -⟩
        · rw [hi]
        · have := (h.occ x i).2 ⟨n, hn, hin⟩
          rw [ho] at this
          simp only [Option.some.injEq] at this
          exact absurd this.symm hne
        · exact absurd rfl hne
    · have hocc : (relocate st pred cur diff).occur x = st.occur x := by
        simp [relocate, hx]
      rw [hocc, h.occ x i]
      constructor
      · rintro ⟨n, hn, hin⟩
        exact ⟨_, (relocate_some hb).2 ⟨n, hn, rfl⟩, mem_movedRefs.2 (Or.inr ⟨hx, hin⟩)⟩
      · rintro ⟨n', hn', hmem⟩
        obtain ⟨n, hn, rfl⟩ := (relocate_some hb).1 hn'
        rcases mem_movedRefs.1 hmem with ⟨hxe, -⟩ | ⟨-, hin⟩
        · exact absurd hxe hx
        · exact ⟨n, hn, hin⟩
  · intro x
    rw [h.dom x]
    by_cases hx : x = pred
    · subst hx
      simp [relocate, ho]
    · simp [relocate, hx]
  · intro c d hc
    rw [relocate_length]
    exact h.cacheLt c d hc

/-! ## One inner iteration -/

theorem moveStep_hit {pattern : Pattern} {st : LoopState} {pred : Predicate}
    {cur diff : Nat} (ho : st.occur pred = some cur) (hc : st.cache cur = some diff) :
    moveStep pattern st pred = some (relocate st pred cur diff) := by
  simp [moveStep, ho, hc]

theorem moveStep_miss {pattern : Pattern} {st : LoopState} {pred : Predicate}
    {cur : Nat} (ho : st.occur pred = some cur) (hc : st.cache cur = none) :
    moveStep pattern st pred =
      some (relocate (pushChild pattern st cur) pred cur
        ((pushChild pattern st cur).base + st.nodes.length)) := by
  simp [moveStep, ho, hc]

theorem StepRel_hit {preds : List Predicate} {st : LoopState} (h : Inv preds st)
    (pattern : Pattern) {pred : Predicate} {cur diff : Nat}
    (ho : st.occur pred = some cur) (hc : st.cache cur = some diff) :
    StepRel pattern st pred (relocate st pred cur diff) cur diff := by
  refine ⟨ho, h.occ_lt ho, rfl, fun q => rfl, ?_, ?_, ?_, ?_⟩
  · intro c
    by_cases hcc : c = cur
    · subst hcc; simp [relocate, hc]
    · simp [relocate, hcc]
  · exact Or.inl ⟨hc, h.cacheLt _ _ hc, relocate_length _ _ _ _⟩
  · intro j n hn
    exact (relocate_some h.base0).2 ⟨n, hn, rfl⟩
  · intro j n' hn'
    exact Or.inl ((relocate_some h.base0).1 hn')

theorem StepRel_miss {preds : List Predicate} {st : LoopState} (h : Inv preds st)
    (pattern : Pattern) {pred : Predicate} {cur : Nat}
    (ho : st.occur pred = some cur) (hc : st.cache cur = none)
    (hroom : st.nodes.length < st.cap) :
    StepRel pattern st pred
      (relocate (pushChild pattern st cur) pred cur st.nodes.length) cur
      st.nodes.length := by
  have hlt := h.occ_lt ho
  obtain ⟨hb, hcap, hcache⟩ := pushChild_room pattern st cur h.base0 hroom
  refine ⟨ho, hlt, hcap, ?_, ?_, ?_, ?_, ?_⟩
  · intro q
    show (if q = pred then some st.nodes.length else (pushChild pattern st cur).occur q) = _
    rw [pushChild_occur]
  · intro c
    show (pushChild pattern st cur).cache c = _
    rw [hcache]
  · exact Or.inr ⟨hc, rfl, by rw [relocate_length, pushChild_length]⟩
  · intro j n hn
    exact (relocate_some hb).2 ⟨n, pushChild_some.2 (Or.inl hn), rfl⟩
  · intro j n' hn'
    obtain ⟨n, hn, rfl⟩ := (relocate_some hb).1 hn'
    rcases pushChild_some.1 hn with hn | ⟨hj, rfl⟩
    · exact Or.inl ⟨n, hn, rfl⟩
    · refine Or.inr ⟨hc, hj, ?_⟩
      subst hj
      have hne : st.nodes.length ≠ cur := by omega
      simp [movedRefs, hne]

theorem modifyRefs_last (f : Finset Predicate → Finset Predicate)
    (l : List ReferenceNode) (x : ReferenceNode) :
    modifyRefs f l.length (l ++ [x]) = l ++ [{ x with refs := f x.refs }] := by
  induction l with
  | nil => rfl
  | cons a l ih => simp [modifyRefs, ih]

/-- The inner iteration whose `emplace_back` finds the buffer full. -/
theorem MovedRel_full {preds : List Predicate} {st : LoopState} (h : Inv preds st)
    (pattern : Pattern) {pred : Predicate} {cur : Nat}
    (ho : st.occur pred = some cur) (hc : st.cache cur = none)
    (hfull : ¬ st.nodes.length < st.cap) :
    MovedRel pattern st pred
      (relocate (pushChild pattern st cur) pred cur
        ((pushChild pattern st cur).base + st.nodes.length)) cur := by
  have hlt := h.occ_lt ho
  have hcapGe := h.capGe
  have hlen : st.nodes.length = st.cap := by omega
  have hbase := pushChild_full pattern st cur h.base0 hfull
  refine ⟨ho, hlt, hc, hlen, ?_, hbase, ?_⟩
  · show modifyAt _ _ _ (modifyAt _ _ _ _) = _
    have h1 : modifyAt (fun r => r.erase pred) (pushChild pattern st cur) cur
        (pushChild pattern st cur).nodes = (pushChild pattern st cur).nodes := by
      unfold modifyAt
      rw [hbase, if_neg (by omega)]
    rw [h1]
    unfold modifyAt
    rw [if_pos (by omega), pushChild_nodes]
    have h2 : (pushChild pattern st cur).base + st.nodes.length -
        (pushChild pattern st cur).base = st.nodes.length := by omega
    rw [h2, modifyRefs_last]
    simp
  · intro q
    show (if q = pred then some ((pushChild pattern st cur).base + st.nodes.length)
      else (pushChild pattern st cur).occur q) = _
    rw [pushChild_occur, hbase]

/-- An inner iteration on a registered predicate with room in the buffer
succeeds, keeps the state consistent and is described by `StepRel`. -/
theorem moveStep_rel {preds : List Predicate} {st : LoopState} (h : Inv preds st)
    (pattern : Pattern) {pred : Predicate} (hp : pred ∈ preds)
    (hroom : st.nodes.length < st.cap) :
    ∃ st' cur diff, moveStep pattern st pred = some st' ∧ Inv preds st' ∧
      StepRel pattern st pred st' cur diff := by
  obtain ⟨cur, hcur⟩ := (h.dom pred).1 hp
  have hlt := h.occ_lt hcur
  obtain ⟨hb, -, -⟩ := pushChild_room pattern st cur h.base0 hroom
  cases hc : st.cache cur with
  | none =>
    refine ⟨_, cur, st.nodes.length, ?_,
      Inv_relocate (Inv_pushChild h pattern cur hroom) ?_ ?_,
      StepRel_miss h pattern hcur hc hroom⟩
    · rw [moveStep_miss hcur hc, hb, Nat.zero_add]
    · rw [pushChild_occur]; exact hcur
    · rw [pushChild_length]; omega
  | some d =>
    exact ⟨_, cur, d, moveStep_hit hcur hc,
      Inv_relocate h hcur (h.cacheLt cur d hc), StepRel_hit h pattern hcur hc⟩

/-- An inner iteration on a registered predicate always succeeds: either the
vector stays in place, or its `emplace_back` finds the buffer full. -/
theorem moveStep_any {preds : List Predicate} {st : LoopState} (h : Inv preds st)
    (pattern : Pattern) {pred : Predicate} (hp : pred ∈ preds) :
    ∃ st', moveStep pattern st pred = some st' ∧
      ((∃ cur diff, Inv preds st' ∧ StepRel pattern st pred st' cur diff) ∨
        ∃ cur, MovedRel pattern st pred st' cur) := by
  by_cases hroom : st.nodes.length < st.cap
  · obtain ⟨st', cur, d, hm, hI, hrel⟩ := moveStep_rel h pattern hp hroom
    exact ⟨st', hm, Or.inl ⟨cur, d, hI, hrel⟩⟩
  · obtain ⟨cur, hcur⟩ := (h.dom pred).1 hp
    cases hc : st.cache cur with
    | none =>
      exact ⟨_, moveStep_miss hcur hc, Or.inr ⟨cur, MovedRel_full h pattern hcur hc hroom⟩⟩
    | some d =>
      exact ⟨_, moveStep_hit hcur hc,
        Or.inl ⟨cur, d, Inv_relocate h hcur (h.cacheLt cur d hc),
          StepRel_hit h pattern hcur hc⟩⟩

/-- Induction principle for the inner loop over members for which the buffer
has room. -/
theorem processPreds_run (preds : List Predicate) (pattern : Pattern)
    (Q : List Predicate → LoopState → Prop)
    (hstep : ∀ visited st e st' cur diff, Inv preds st → Q visited st → e ∈ preds →
      StepRel pattern st e st' cur diff → Inv preds st' → Q (visited ++ [e]) st') :
    ∀ (todo visited : List Predicate) (st : LoopState), Inv preds st → Q visited st →
      (∀ e ∈ todo, e ∈ preds) → st.nodes.length + todo.length ≤ st.cap →
      ∃ st', processPreds pattern st todo = some st' ∧ Inv preds st' ∧
        Q (visited ++ todo) st' := by
  intro todo
  induction todo with
  | nil =>
    intro visited st hI hQ _ _
    exact ⟨st, rfl, hI, by simpa using hQ⟩
  | cons e todo ih =>
    intro visited st hI hQ hall hroom
    have he : e ∈ preds := hall e (List.mem_cons_self _ _)
    simp only [List.length_cons] at hroom
    obtain ⟨st1, cur, d, hm, hI1, hrel⟩ := moveStep_rel hI pattern he (by omega)
    have hQ1 := hstep visited st e st1 cur d hI hQ he hrel hI1
    have hroom1 : st1.nodes.length + todo.length ≤ st1.cap := by
      rw [hrel.cap1]
      rcases hrel.kind with ⟨-, -, hl⟩ | ⟨-, -, hl⟩ <;> omega
    obtain ⟨st2, hrun, hI2, hQ2⟩ := ih (visited ++ [e]) st1 hI1 hQ1
      (fun x hx => hall x (List.mem_cons_of_mem _ hx)) hroom1
    refine ⟨st2, ?_, hI2, by simpa using hQ2⟩
    simp only [processPreds, List.foldlM_cons, hm] at hrun ⊢
    exact hrun

/-- Induction principle for the outer loop over patterns for which the buffer
has room. -/
theorem processPatterns_run (preds : List Predicate) (C : Pattern → Prop)
    (R : List Pattern → LoopState → Prop)
    (hpass : ∀ done st P, Inv preds st → R done st → C P →
      st.nodes.length + P.preds.length ≤ st.cap →
      ∃ st', processPattern st P = some st' ∧ Inv preds st' ∧ R (done ++ [P]) st' ∧
        st'.cap = st.cap ∧ st'.nodes.length ≤ st.nodes.length + P.preds.length) :
    ∀ (todo done : List Pattern) (st : LoopState), Inv preds st → R done st →
      (∀ P ∈ todo, C P) →
      st.nodes.length + (todo.map fun P => P.preds.length).sum ≤ st.cap →
      ∃ st', processPatterns st todo = some st' ∧ Inv preds st' ∧
        R (done ++ todo) st' := by
  intro todo
  induction todo with
  | nil =>
    intro done st hI hR _ _
    exact ⟨st, rfl, hI, by simpa using hR⟩
  | cons P todo ih =>
    intro done st hI hR hall hroom
    simp only [List.map_cons, List.sum_cons] at hroom
    obtain ⟨st1, hp, hI1, hR1, hcap, hlen⟩ :=
      hpass done st P hI hR (hall P (List.mem_cons_self _ _)) (by omega)
    obtain ⟨st2, hrun, hI2, hR2⟩ := ih (done ++ [P]) st1 hI1 hR1
      (fun x hx => hall x (List.mem_cons_of_mem _ hx)) (by rw [hcap]; omega)
    refine ⟨st2, ?_, hI2, by simpa using hR2⟩
    simp only [processPatterns, List.foldlM_cons, hp] at hrun ⊢
    exact hrun

/-! ## One pass of the outer loop -/

theorem movedRefs_subset {pred : Predicate} {cur diff j : Nat} {r : Finset Predicate}
    (h : j ≠ diff) : movedRefs pred cur diff j r ⊆ r := by
  intro x hx
  rcases mem_movedRefs.1 hx with ⟨rfl, hj | ⟨-, hin⟩⟩ | ⟨-, hin⟩
  · exact absurd hj h
  · exact hin
  · exact hin

theorem Pass_start (pattern : Pattern) (s0 : LoopState) :
    Pass pattern s0 0 (freshCache s0) := by
  refine ⟨le_refl _, le_refl _, rfl, ?_, ?_, ?_⟩
  · intro i n0 h
    exact ⟨n0, h, rfl, rfl, Finset.Subset.refl _⟩
  · intro c d h
    cases h
  · intro i n h hi
    have := getElem?_lt h
    simp only [freshCache] at this
    omega

theorem StepRel.diff_ge {pattern : Pattern} {s0 st st' : LoopState} {k : Nat}
    {e : Predicate} {cur d : Nat} (hP : Pass pattern s0 k st)
    (hrel : StepRel pattern st e st' cur d) : s0.nodes.length ≤ d := by
  rcases hrel.kind with ⟨hc, -, -⟩ | ⟨-, hd, -⟩
  · exact (hP.cacheNew cur d hc).1
  · rw [hd]; exact hP.lenGe

theorem Pass_step {pattern : Pattern} {s0 st st' : LoopState} {k : Nat}
    {e : Predicate} {cur d : Nat} (hP : Pass pattern s0 k st)
    (hrel : StepRel pattern st e st' cur d) : Pass pattern s0 (k + 1) st' := by
  have hge := hrel.diff_ge hP
  have hlenGe := hP.lenGe
  have hlenLe := hP.lenLe
  refine ⟨?_, ?_, hrel.cap1.trans hP.capEq, ?_, ?_, ?_⟩
  · rcases hrel.kind with ⟨-, -, hl⟩ | ⟨-, -, hl⟩ <;> omega
  · rcases hrel.kind with ⟨-, -, hl⟩ | ⟨-, -, hl⟩ <;> omega
  · intro i n0 h0
    obtain ⟨n, hn, hpar, hdiff, hsub⟩ := hP.old i n0 h0
    refine ⟨_, hrel.keep i n hn, hpar, hdiff, ?_⟩
    have hi : i < s0.nodes.length := getElem?_lt h0
    exact Finset.Subset.trans (movedRefs_subset (by omega)) hsub
  · intro c d' hc
    rw [hrel.cache1] at hc
    by_cases hcc : c = cur
    · subst hcc
      simp only [if_true, Option.some.injEq] at hc
      subst hc
      refine ⟨hge, ?_, ?_⟩
      · rcases hrel.kind with ⟨hc, -, -⟩ | ⟨-, hd, -⟩
        · exact (hP.cacheNew c d hc).2.1
        · have := hrel.curLt; omega
      · rcases hrel.kind with ⟨hc, -, -⟩ | ⟨hcn, hd, hl⟩
        · obtain ⟨n, hn, hpar, hdiff⟩ := (hP.cacheNew c d hc).2.2
          exact ⟨_, hrel.keep d n hn, hpar, hdiff⟩
        · have hlt : d < st'.nodes.length := by omega
          have hget : st'.nodes[d]? = some st'.nodes[d] := List.getElem?_eq_getElem hlt
          rcases hrel.origin d _ hget with ⟨n, hn, -⟩ | ⟨-, -, hn'⟩
          · have := getElem?_lt hn; omega
          · exact ⟨_, hget, by rw [hn'], by rw [hn']⟩
    · simp only [hcc, if_false] at hc
      obtain ⟨h1, h2, n, hn, hpar, hdiff⟩ := hP.cacheNew c d' hc
      exact ⟨h1, h2, _, hrel.keep d' n hn, hpar, hdiff⟩
  · intro i n' hn' hi
    rcases hrel.origin i n' hn' with ⟨n, hn, rfl⟩ | ⟨hcn, hj, rfl⟩
    · obtain ⟨c, hc, hpar, hdiff⟩ := hP.fresh i n hn hi
      refine ⟨c, ?_, hpar, hdiff⟩
      rw [hrel.cache1]
      by_cases hcc : c = cur
      · subst hcc
        rcases hrel.kind with ⟨hc', -, -⟩ | ⟨hc', -, -⟩
        · rw [hc] at hc'; simp [hc']
        · rw [hc] at hc'; cases hc'
      · simp [hcc, hc]
    · refine ⟨cur, ?_, rfl, rfl⟩
      rw [hrel.cache1]
      rcases hrel.kind with ⟨hc', -, -⟩ | ⟨-, hd, -⟩
      · rw [hcn] at hc'; cases hc'
      · simp [hd, hj]

theorem PassSet_start (s0 : LoopState) : PassSet s0 [] (freshCache s0) := by
  refine ⟨fun e _ => rfl, ?_, ?_⟩
  · intro e he; cases he
  · intro c d h; cases h

theorem PassSet_step {pattern : Pattern} {s0 st st' : LoopState}
    {visited : List Predicate} {e : Predicate} {cur d : Nat}
    (hS : PassSet s0 visited st) (he : e ∉ visited)
    (hrel : StepRel pattern st e st' cur d) : PassSet s0 (visited ++ [e]) st' := by
  have hcur0 : s0.occur e = some cur := by
    rw [← hS.unvisited e he]; exact hrel.occ0
  refine ⟨?_, ?_, ?_⟩
  · intro x hx
    have hx1 : x ∉ visited := fun h => hx (List.mem_append_left _ h)
    have hx2 : x ≠ e := fun h => hx (by simp [h])
    rw [hrel.occ1, if_neg hx2]
    exact hS.unvisited x hx1
  · intro x hx
    by_cases hxe : x = e
    · subst hxe
      refine ⟨cur, d, hcur0, ?_, ?_⟩
      · rw [hrel.cache1]; simp
      · rw [hrel.occ1]; simp
    · have hxv : x ∈ visited := by
        rcases List.mem_append.1 hx with h | h
        · exact h
        · simp at h; exact absurd h hxe
      obtain ⟨c0, d0, h0, hc0, ho0⟩ := hS.moved x hxv
      refine ⟨c0, d0, h0, ?_, ?_⟩
      · rw [hrel.cache1]
        by_cases hcc : c0 = cur
        · subst hcc
          rcases hrel.kind with ⟨hc', -, -⟩ | ⟨hc', -, -⟩
          · rw [hc0] at hc'; simp [hc']
          · rw [hc0] at hc'; cases hc'
        · simp [hcc, hc0]
      · rw [hrel.occ1, if_neg hxe]; exact ho0
  · intro c d' hc
    rw [hrel.cache1] at hc
    by_cases hcc : c = cur
    · subst hcc
      exact ⟨e, by simp, hcur0⟩
    · simp only [hcc, if_false] at hc
      obtain ⟨x, hx, hx0⟩ := hS.cacheOld c d' hc
      exact ⟨x, List.mem_append_left _ hx, hx0⟩

/-- The inner loop over a list of registered predicates for which the buffer
has room runs to the end and yields a state related to the start of the pass
by `Pass` and `PassSet`. -/
theorem pass_run {preds : List Predicate} {s0 : LoopState} (hI : Inv preds s0)
    (pattern : Pattern) (members : List Predicate) (hall : ∀ e ∈ members, e ∈ preds)
    (hroom : s0.nodes.length + members.length ≤ s0.cap) :
    ∃ st, processPreds pattern (freshCache s0) members = some st ∧ Inv preds st ∧
      Pass pattern s0 members.length st ∧ (members.Nodup → PassSet s0 members st) := by
  have key := processPreds_run preds pattern
    (fun visited st => Pass pattern s0 visited.length st ∧
      (visited.Nodup → PassSet s0 visited st))
    (by
      intro visited st e st' cur d _ hQ _ hrel _
      refine ⟨?_, ?_⟩
      · simpa using Pass_step hQ.1 hrel
      · intro hnd
        have hnd' : visited.Nodup ∧ e ∉ visited := by
          have := List.nodup_append.1 hnd
          refine ⟨this.1, ?_⟩
          intro hmem
          exact this.2.2 hmem (by simp)
        exact PassSet_step (hQ.2 hnd'.1) hnd'.2 hrel)
    members [] (freshCache s0) (Inv_freshCache hI)
    ⟨by simpa using Pass_start pattern s0, fun _ => PassSet_start s0⟩ hall hroom
  obtain ⟨st, h1, h2, h3, h4⟩ := key
  exact ⟨st, h1, h2, by simpa using h3, by simpa using h4⟩

theorem Shape_initState (K : Nat) (preds : List Predicate) :
    Shape (initState K preds) := by
  refine ⟨⟨_, by rw [initState_nodes]; rfl, rfl, rfl⟩, ?_⟩
  intro i n hn hi
  have := getElem?_lt hn
  rw [initState_nodes] at this
  simp at this
  omega

theorem Shape_pass {pattern : Pattern} {s0 st : LoopState} {k : Nat}
    (hS : Shape s0) (hP : Pass pattern s0 k st) : Shape st := by
  refine ⟨?_, ?_⟩
  · obtain ⟨r, hr, hpar, hdiff⟩ := hS.root
    obtain ⟨n, hn, hp, hd, -⟩ := hP.old 0 r hr
    exact ⟨n, hn, by rw [hp, hpar], by rw [hd, hdiff]⟩
  · intro i n hn hi
    by_cases hlt : i < s0.nodes.length
    · have h0 : s0.nodes[i]? = some s0.nodes[i] := List.getElem?_eq_getElem hlt
      obtain ⟨n', hn', hp, hd, -⟩ := hP.old i _ h0
      rw [hn] at hn'
      simp only [Option.some.injEq] at hn'
      subst hn'
      obtain ⟨j, p, hj, hji, hpd⟩ := hS.child i _ h0 hi
      exact ⟨j, p, by rw [hp, hj], hji, by rw [hd, hpd]⟩
    · obtain ⟨c, hc, hpar, hdiff⟩ := hP.fresh i n hn (by omega)
      exact ⟨c, pattern, hpar, (hP.cacheNew c i hc).2.1, hdiff⟩

/-! ## Passes over patterns that are sets -/

theorem Pass.old_eq {pattern : Pattern} {s0 st : LoopState} {k : Nat}
    (hP : Pass pattern s0 k st) {i : Nat} {n : ReferenceNode}
    (hn : st.nodes[i]? = some n) (hi : i < s0.nodes.length) :
    ∃ n0, s0.nodes[i]? = some n0 ∧ n.parent = n0.parent ∧ n.diff = n0.diff := by
  have h0 : s0.nodes[i]? = some s0.nodes[i] := List.getElem?_eq_getElem hi
  obtain ⟨n', hn', hp, hd, -⟩ := hP.old i _ h0
  rw [hn] at hn'
  simp only [Option.some.injEq] at hn'
  subst hn'
  exact ⟨_, h0, hp, hd⟩

theorem SingleChild_initState (K : Nat) (preds : List Predicate) :
    SingleChild (initState K preds).nodes := by
  intro i j ni nj hi hj _ _
  have h1 := getElem?_lt hi
  have h2 := getElem?_lt hj
  rw [initState_nodes] at h1 h2
  simp at h1 h2
  omega

theorem Ahead_initState (K : Nat) (preds : List Predicate) :
    Ahead (initState K preds) := by
  intro m nm c Q hm hpar _ _ _ _ _
  rw [initState_nodes] at hm
  cases m with
  | zero =>
    simp at hm
    subst hm
    cases hpar
  | succ k => simp at hm

theorem SingleChild_pass {P : Pattern} {s0 st : LoopState}
    {k : Nat} {visited : List Predicate} (hA : Ahead s0)
    (hSC : SingleChild s0.nodes) (hP : Pass P s0 k st) (hS : PassSet s0 visited st)
    (hsub : ∀ e ∈ visited, e ∈ P.preds) : SingleChild st.nodes := by
  have mixed : ∀ (i j : Nat) (ni nj : ReferenceNode), st.nodes[i]? = some ni →
      st.nodes[j]? = some nj → i < s0.nodes.length → s0.nodes.length ≤ j →
      ni.parent = nj.parent → ni.diff = nj.diff → False := by
    intro i j ni nj hi hj hil hjl hpar hdiff
    obtain ⟨n0, hn0, hp0, hd0⟩ := hP.old_eq hi hil
    obtain ⟨c, hc, hpj, hdj⟩ := hP.fresh j nj hj hjl
    obtain ⟨e, hev, he0⟩ := hS.cacheOld c j hc
    have := hA i n0 c P hn0 (by rw [← hp0, hpar, hpj]) (by rw [← hd0, hdiff, hdj])
      e (hsub e hev) c he0
    omega
  intro i j ni nj hi hj hpar hdiff
  by_cases hil : i < s0.nodes.length
  · by_cases hjl : j < s0.nodes.length
    · obtain ⟨n0, hn0, hp0, hd0⟩ := hP.old_eq hi hil
      obtain ⟨m0, hm0, hq0, he0⟩ := hP.old_eq hj hjl
      exact hSC i j n0 m0 hn0 hm0 (by rw [← hp0, hpar, hq0]) (by rw [← hd0, hdiff, he0])
    · exact (mixed i j ni nj hi hj hil (by omega) hpar hdiff).elim
  · by_cases hjl : j < s0.nodes.length
    · exact (mixed j i nj ni hj hi hjl (by omega) hpar.symm hdiff.symm).elim
    · obtain ⟨c, hc, hpi, -⟩ := hP.fresh i ni hi (by omega)
      obtain ⟨c', hc', hpj, -⟩ := hP.fresh j nj hj (by omega)
      rw [hpi, hpj] at hpar
      simp only [Option.some.injEq] at hpar
      subst hpar
      rw [hc] at hc'
      exact Option.some.inj hc'

theorem Ahead_pass {preds : List Predicate} {P : Pattern} {s0 st : LoopState}
    {k : Nat} (hI0 : Inv preds s0) (hSh : Shape s0) (hA : Ahead s0)
    (hP : Pass P s0 k st) (hS : PassSet s0 P.preds st) : Ahead st := by
  intro m nm c Q hm hpar hdiff e he kk hk
  by_cases hml : m < s0.nodes.length
  · obtain ⟨n0, hn0, hp0, hd0⟩ := hP.old_eq hm hml
    by_cases heP : e ∈ P.preds
    · obtain ⟨c0, d, -, hcd, hod⟩ := hS.moved e heP
      rw [hk] at hod
      simp only [Option.some.injEq] at hod
      subst hod
      have hge := (hP.cacheNew c0 kk hcd).1
      have hm0 : 0 < m := by
        rcases Nat.eq_zero_or_pos m with h0 | h0
        · subst h0
          obtain ⟨r, hr, hrp, -⟩ := hSh.root
          rw [hn0] at hr
          simp only [Option.some.injEq] at hr
          subst hr
          rw [hp0, hrp] at hpar
          cases hpar
        · exact h0
      obtain ⟨j, p, hj, hjm, -⟩ := hSh.child m n0 hn0 hm0
      rw [hp0, hj] at hpar
      simp only [Option.some.injEq] at hpar
      omega
    · have := hS.unvisited e heP
      rw [this] at hk
      exact hA m n0 c Q hn0 (by rw [← hp0, hpar]) (by rw [← hd0, hdiff]) e he kk hk
  · obtain ⟨c', hc', hpm, hdm⟩ := hP.fresh m nm hm (by omega)
    rw [hpm] at hpar
    simp only [Option.some.injEq] at hpar
    subst hpar
    rw [hdm] at hdiff
    simp only [Option.some.injEq] at hdiff
    subst hdiff
    obtain ⟨e', -, he'0⟩ := hS.cacheOld c' m hc'
    have hcl := hI0.occ_lt he'0
    obtain ⟨c0, d, -, hcd, hod⟩ := hS.moved e he
    rw [hk] at hod
    simp only [Option.some.injEq] at hod
    subst hod
    have hge := (hP.cacheNew c0 kk hcd).1
    omega

/-! ## Whole runs -/

theorem reserveRequest_fold (l : List Pattern) :
    ∀ k : Nat, l.foldl (fun K pattern => K + pattern.preds.length) k =
      k + (l.map fun P => P.preds.length).sum := by
  induction l with
  | nil => intro k; simp
  | cons P l ih =>
    intro k
    simp only [List.foldl_cons, List.map_cons, List.sum_cons, ih]
    omega

theorem reserveRequest_eq_sum (l : List Pattern) :
    reserveRequest l = (l.map fun P => P.preds.length).sum := by
  simp [reserveRequest, reserveRequest_fold]

theorem processPatterns_append (st : LoopState) (l1 l2 : List Pattern) :
    processPatterns st (l1 ++ l2) =
      (processPatterns st l1).bind fun s => processPatterns s l2 := by
  simp only [processPatterns, List.foldlM_append]
  rfl

theorem processPreds_append (pattern : Pattern) (st : LoopState)
    (l1 l2 : List Predicate) :
    processPreds pattern st (l1 ++ l2) =
      (processPreds pattern st l1).bind fun s => processPreds pattern s l2 := by
  simp only [processPreds, List.foldlM_append]
  rfl

theorem Later_refl (s : LoopState) : Later s s :=
  fun _ n0 h => ⟨n0, h, rfl, rfl, Finset.Subset.refl _⟩

theorem Later_trans {s0 s1 s2 : LoopState} (h1 : Later s0 s1) (h2 : Later s1 s2) :
    Later s0 s2 := by
  intro i n0 h0
  obtain ⟨n1, hn1, hp1, hd1, hs1⟩ := h1 i n0 h0
  obtain ⟨n2, hn2, hp2, hd2, hs2⟩ := h2 i n1 hn1
  exact ⟨n2, hn2, hp2.trans hp1, hd2.trans hd1, Finset.Subset.trans hs2 hs1⟩

theorem MembersWithin.inits {preds : List Predicate} {l1 l2 : List Pattern}
    (h : MembersWithin preds (l1 ++ l2)) : MembersWithin preds l1 :=
  fun P hP => h P (List.mem_append_left _ hP)

/-- The outer loop over patterns for which the buffer has room: it runs to the
end in place; the result is consistent, has the shape of a forest and extends
the start state; with `N`, which stands for the member lists being sets, it
has one child per node and pattern. -/
theorem run_room (N : Prop) {preds : List Predicate} {s : LoopState}
    (hI : Inv preds s) (hS : Shape s) (hN : N → Ahead s ∧ SingleChild s.nodes)
    (ps : List Pattern) (h : MembersWithin preds ps) (hs : N → SetLike ps)
    (hroom : s.nodes.length + (ps.map fun P => P.preds.length).sum ≤ s.cap) :
    ∃ st, processPatterns s ps = some st ∧ Inv preds st ∧ Shape st ∧ Later s st ∧
      s.nodes.length ≤ st.nodes.length ∧
      st.nodes.length ≤ s.nodes.length + (ps.map fun P => P.preds.length).sum ∧
      st.cap = s.cap ∧ (N → Ahead st ∧ SingleChild st.nodes) := by
  have key := processPatterns_run preds
    (fun P => (∀ e ∈ P.preds, e ∈ preds) ∧ (N → P.preds.Nodup))
    (fun done st => Shape st ∧ Later s st ∧ s.nodes.length ≤ st.nodes.length ∧
      st.nodes.length ≤ s.nodes.length + (done.map fun P => P.preds.length).sum ∧
      st.cap = s.cap ∧ (N → Ahead st ∧ SingleChild st.nodes))
    (by
      intro done st P hI' hR hC hroom'
      obtain ⟨hSh, hL, hge, hle, hcap, hstrong⟩ := hR
      obtain ⟨st', hrun, hI'', hP, hSet⟩ := pass_run hI' P P.preds hC.1 hroom'
      have hlen1 := hP.lenGe
      have hlen2 := hP.lenLe
      refine ⟨st', hrun, hI'', ⟨Shape_pass hSh hP, Later_trans hL hP.old, by omega, ?_,
        hP.capEq.trans hcap, ?_⟩, hP.capEq, hP.lenLe⟩
      · simp only [List.map_append, List.sum_append, List.map_cons, List.map_nil,
          List.sum_cons, List.sum_nil]
        omega
      · intro hn
        obtain ⟨hA, hSC⟩ := hstrong hn
        have hPS := hSet (hC.2 hn)
        exact ⟨Ahead_pass hI' hSh hA hP hPS,
          SingleChild_pass hA hSC hP hPS (fun _ hx => hx)⟩)
    ps [] s hI ⟨hS, Later_refl s, le_refl _, by simp, rfl, hN⟩
    (fun P hP => ⟨h P hP, fun hn => hs hn P hP⟩) hroom
  obtain ⟨st, h1, h2, h3, h4, h5, h6, h7, h8⟩ := key
  exact ⟨st, h1, h2, h3, h4, h5, by simpa using h6, h7, h8⟩

/-- A node appended to a forest with one child per node and pattern keeps that
property when no node has its parent and pattern. -/
theorem SingleChild_append {nodes : List ReferenceNode} {x : ReferenceNode}
    (h : SingleChild nodes)
    (hx : ∀ (i : Nat) (n : ReferenceNode), nodes[i]? = some n →
      ¬ (n.parent = x.parent ∧ n.diff = x.diff)) :
    SingleChild (nodes ++ [x]) := by
  have get : ∀ (i : Nat) (n : ReferenceNode), (nodes ++ [x])[i]? = some n →
      (i < nodes.length ∧ nodes[i]? = some n) ∨ (i = nodes.length ∧ n = x) := by
    intro i n hn
    by_cases hi : i < nodes.length
    · rw [List.getElem?_append_left hi] at hn
      exact Or.inl ⟨hi, hn⟩
    · have hl := getElem?_lt hn
      simp only [List.length_append, List.length_singleton] at hl
      have hi' : i = nodes.length := by omega
      subst hi'
      rw [List.getElem?_concat_length] at hn
      exact Or.inr ⟨rfl, (Option.some.inj hn).symm⟩
  intro i j ni nj hi hj hp hd
  rcases get i ni hi with ⟨-, hi'⟩ | ⟨hi', rfl⟩
  · rcases get j nj hj with ⟨-, hj'⟩ | ⟨hj', rfl⟩
    · exact h i j ni nj hi' hj' hp hd
    · exact (hx i ni hi' ⟨hp, hd⟩).elim
  · rcases get j nj hj with ⟨-, hj'⟩ | ⟨hj', -⟩
    · exact (hx j nj hj' ⟨hp.symm, hd.symm⟩).elim
    · omega

/-- The inner loop over members of which at most the last one finds the
buffer full: it runs to the end, every node of the start of the pass keeps its
index, parent and pattern and gains no member, and (`N`) with distinct members
of the pattern there is one child per node and pattern. -/
theorem preds_any (N : Prop) {preds : List Predicate} {s : LoopState}
    (hI : Inv preds s) (P : Pattern) (ms : List Predicate)
    (hall : ∀ e ∈ ms, e ∈ preds)
    (hN : N → Ahead s ∧ SingleChild s.nodes ∧ ms.Nodup ∧ ∀ e ∈ ms, e ∈ P.preds)
    (hbudget : s.nodes.length + ms.length ≤ s.cap + 1) :
    ∃ st, processPreds P (freshCache s) ms = some st ∧ Later s st ∧
      s.nodes.length ≤ st.nodes.length ∧ st.nodes.length ≤ s.nodes.length + ms.length ∧
      (N → SingleChild st.nodes) := by
  by_cases hroom : s.nodes.length + ms.length ≤ s.cap
  · obtain ⟨st, hrun, -, hP, hSet⟩ := pass_run hI P ms hall hroom
    refine ⟨st, hrun, hP.old, hP.lenGe, hP.lenLe, ?_⟩
    intro hn
    obtain ⟨hA, hSC, hnd, hsub⟩ := hN hn
    exact SingleChild_pass hA hSC hP (hSet hnd) hsub
  · have hcapGe := hI.capGe
    have hms : ms ≠ [] := by
      intro h0
      rw [h0] at hroom
      simp at hroom
      omega
    obtain ⟨vis, e, rfl⟩ : ∃ vis e, ms = vis ++ [e] :=
      ⟨ms.dropLast, ms.getLast hms, (List.dropLast_append_getLast hms).symm⟩
    simp only [List.length_append, List.length_singleton] at hbudget hroom
    obtain ⟨s2, hrun2, hI2, hP2, hSet2⟩ := pass_run hI P vis
      (fun x hx => hall x (List.mem_append_left _ hx)) (by omega)
    have he : e ∈ preds := hall e (by simp)
    obtain ⟨st, hm, hcase⟩ := moveStep_any hI2 P he
    have hrun : processPreds P (freshCache s) (vis ++ [e]) = some st := by
      rw [processPreds_append, hrun2]
      simp only [Option.bind, processPreds, List.foldlM_cons, List.foldlM_nil, hm]
      rfl
    have hlen1 := hP2.lenGe
    have hlen2 := hP2.lenLe
    rcases hcase with ⟨cur, d, -, hrel⟩ | ⟨cur, hmv⟩
    · have hP := Pass_step hP2 hrel
      refine ⟨st, hrun, hP.old, hP.lenGe, by
        simpa [List.length_append] using hP.lenLe, ?_⟩
      intro hn
      obtain ⟨hA, hSC, hnd, hsub⟩ := hN hn
      have hnd' := List.nodup_append.1 hnd
      have hev : e ∉ vis := fun hmem => hnd'.2.2 hmem (by simp)
      exact SingleChild_pass hA hSC hP (PassSet_step (hSet2 hnd'.1) hev hrel) hsub
    · have hget : ∀ (i : Nat) (n : ReferenceNode), s2.nodes[i]? = some n →
          st.nodes[i]? = some n := by
        intro i n hn
        rw [hmv.nodes1, List.getElem?_append_left (getElem?_lt hn)]
        exact hn
      refine ⟨st, hrun, ?_, ?_, ?_, ?_⟩
      · intro i n0 h0
        obtain ⟨n, hn, hp, hd, hsub⟩ := hP2.old i n0 h0
        exact ⟨n, hget i n hn, hp, hd, hsub⟩
      · rw [hmv.nodes1]; simp; omega
      · rw [hmv.nodes1]; simp; omega
      · intro hn
        obtain ⟨hA, hSC, hnd, hsub⟩ := hN hn
        have hnd' := List.nodup_append.1 hnd
        have hev : e ∉ vis := fun hmem => hnd'.2.2 hmem (by simp)
        have hPS := hSet2 hnd'.1
        have hSC2 : SingleChild s2.nodes :=
          SingleChild_pass hA hSC hP2 hPS (fun x hx => hsub x (List.mem_append_left _ hx))
        rw [hmv.nodes1]
        apply SingleChild_append hSC2
        rintro i n hn ⟨hp, hd⟩
        simp only at hp hd
        by_cases hil : i < s.nodes.length
        · obtain ⟨n0, hn0, hp0, hd0⟩ := hP2.old_eq hn hil
          have hocc : s.occur e = some cur := by
            rw [← hPS.unvisited e hev]; exact hmv.occ0
          have := hA i n0 cur P hn0 (by rw [← hp0, hp]) (by rw [← hd0, hd]) e
            (hsub e (by simp)) cur hocc
          omega
        · obtain ⟨c, hc, hpc, -⟩ := hP2.fresh i n hn (by omega)
          rw [hpc] at hp
          simp only [Option.some.injEq] at hp
          subst hp
          rw [hmv.miss] at hc
          cases hc

theorem processPattern_empty (st : LoopState) (E : Pattern) (hE : E.preds = []) :
    processPattern st E = some (freshCache st) := by
  simp [processPattern, processPreds, hE]

/-- The outer loop over patterns of which at most the last member visit finds
the buffer full: it runs to the end, every node of the start keeps its index,
parent and pattern and gains no member, at most one node is added per member,
and (`N`) with member lists that are sets there is one child per node and
pattern. -/
theorem run_any (N : Prop) {preds : List Predicate} {s : LoopState}
    (hI : Inv preds s) (hS : Shape s) (hN : N → Ahead s ∧ SingleChild s.nodes)
    (ps : List Pattern) :
    MembersWithin preds ps → (N → SetLike ps) →
    s.nodes.length + (ps.map fun P => P.preds.length).sum ≤ s.cap + 1 →
    ∃ st, processPatterns s ps = some st ∧ Later s st ∧
      s.nodes.length ≤ st.nodes.length ∧
      st.nodes.length ≤ s.nodes.length + (ps.map fun P => P.preds.length).sum ∧
      (N → SingleChild st.nodes) := by
  induction ps using List.reverseRecOn with
  | nil =>
    intro _ _ _
    exact ⟨s, rfl, Later_refl s, le_refl _, by simp, fun hn => (hN hn).2⟩
  | append_singleton ps P ih =>
    intro h hs hbudget
    simp only [List.map_append, List.sum_append, List.map_cons, List.map_nil,
      List.sum_cons, List.sum_nil, Nat.add_zero] at hbudget ⊢
    have hPm : P ∈ ps ++ [P] := by simp
    have hs' : N → SetLike ps := fun hn Q hQ => hs hn Q (List.mem_append_left _ hQ)
    by_cases hroom : s.nodes.length + (ps.map fun P => P.preds.length).sum ≤ s.cap
    · obtain ⟨s1, hrun1, hI1, hS1, hL1, hge1, hle1, hcap1, hstr1⟩ :=
        run_room N hI hS hN ps h.inits hs' hroom
      obtain ⟨st, hrun, hL, hge, hle, hsc⟩ := preds_any N hI1 P P.preds (h P hPm)
        (fun hn => ⟨(hstr1 hn).1, (hstr1 hn).2, hs hn P hPm, fun _ hx => hx⟩)
        (by rw [hcap1]; omega)
      refine ⟨st, ?_, Later_trans hL1 hL, by omega, by omega, hsc⟩
      rw [processPatterns_append, hrun1]
      simp only [Option.bind, processPatterns, List.foldlM_cons, List.foldlM_nil]
      have : processPattern s1 P = some st := hrun
      rw [this]
      rfl
    · have hP0 : P.preds = [] := by
        have : P.preds.length = 0 := by omega
        exact List.length_eq_zero.1 this
      obtain ⟨s1, hrun1, hL1, hge1, hle1, hsc1⟩ := ih h.inits hs' (by omega)
      refine ⟨freshCache s1, ?_, hL1, hge1, by
        show s1.nodes.length ≤ _
        omega, hsc1⟩
      rw [processPatterns_append, hrun1]
      simp only [Option.bind, processPatterns, List.foldlM_cons, List.foldlM_nil,
        processPattern_empty s1 P hP0]
      rfl

theorem sum_append_cons (done rest : List Pattern) (P : Pattern) :
    ((done ++ P :: rest).map fun P => P.preds.length).sum =
      (done.map fun P => P.preds.length).sum + P.preds.length +
        (rest.map fun P => P.preds.length).sum := by
  simp only [List.map_append, List.sum_append, List.map_cons, List.sum_cons]
  omega

theorem init_budget (K : Nat) (preds : List Predicate) :
    (initState K preds).nodes.length = 1 ∧ K ≤ (initState K preds).cap := by
  rw [initState_nodes, initState_cap]
  exact ⟨rfl, le_max_left _ _⟩

/-- The whole refinement loop, under a reservation that covers the members of
the patterns. -/
theorem refineTo_any (N : Prop) (K : Nat) (preds : List Predicate) (ps : List Pattern)
    (h : MembersWithin preds ps) (hs : N → SetLike ps)
    (hK : (ps.map fun P => P.preds.length).sum ≤ K) :
    ∃ st, refineTo K preds ps = some st ∧ Later (initState K preds) st ∧
      1 ≤ st.nodes.length ∧
      st.nodes.length ≤ 1 + (ps.map fun P => P.preds.length).sum ∧
      (N → SingleChild st.nodes) := by
  obtain ⟨hlen, hcap⟩ := init_budget K preds
  obtain ⟨st, hrun, hL, hge, hle, hsc⟩ := run_any N (Inv_initState K preds)
    (Shape_initState K preds)
    (fun _ => ⟨Ahead_initState K preds, SingleChild_initState K preds⟩) ps h hs
    (by omega)
  exact ⟨st, hrun, hL, by omega, by omega, hsc⟩

/-- The refinement loop over patterns that leave a member visit to come: it
runs in place. -/
theorem refineTo_room (N : Prop) (K : Nat) (preds : List Predicate) (ps : List Pattern)
    (h : MembersWithin preds ps) (hs : N → SetLike ps)
    (hK : (ps.map fun P => P.preds.length).sum < K) :
    ∃ st, refineTo K preds ps = some st ∧ Inv preds st ∧ Shape st ∧
      st.nodes.length ≤ 1 + (ps.map fun P => P.preds.length).sum ∧
      K ≤ st.cap ∧ (N → Ahead st ∧ SingleChild st.nodes) := by
  obtain ⟨hlen, hcap⟩ := init_budget K preds
  obtain ⟨st, hrun, hI, hS, -, -, hle, hc, hstr⟩ := run_room N (Inv_initState K preds)
    (Shape_initState K preds)
    (fun _ => ⟨Ahead_initState K preds, SingleChild_initState K preds⟩) ps h hs
    (by omega)
  exact ⟨st, hrun, hI, hS, by omega, by omega, hstr⟩

theorem refineTo_snoc {K : Nat} {preds : List Predicate} {done : List Pattern}
    {P : Pattern} {s0 s1 : LoopState} (h0 : refineTo K preds done = some s0)
    (h1 : processPattern s0 P = some s1) :
    refineTo K preds (done ++ [P]) = some s1 := by
  rw [refineTo, processPatterns_append]
  rw [refineTo] at h0
  rw [h0]
  simp only [Option.bind, processPatterns, List.foldlM_cons, List.foldlM_nil, h1]
  rfl

/-- C8. Node-count bound: after all patterns the number of nodes is at most
one plus the sum of the pattern sizes, and the pass of a single pattern adds
at most as many nodes as the pattern has members. -/
theorem C8_node_count_bound (preds : List Predicate) (patterns : List Pattern)
    (h : MembersWithin preds patterns) :
    (∃ st, refine preds patterns = some st ∧
      st.nodes.length ≤ 1 + (patterns.map fun P => P.preds.length).sum) ∧
    (∀ (done rest : List Pattern) (P : Pattern), patterns = done ++ P :: rest →
      ∃ s0 s1, refineTo (reserveRequest patterns) preds done = some s0 ∧
        processPattern s0 P = some s1 ∧
        refineTo (reserveRequest patterns) preds (done ++ [P]) = some s1 ∧
        s0.nodes.length ≤ s1.nodes.length ∧
        s1.nodes.length ≤ s0.nodes.length + P.preds.length) := by
  refine ⟨?_, ?_⟩
  · obtain ⟨st, hst, -, -, hlen, -⟩ := refineTo_any False (reserveRequest patterns) preds
      patterns h (fun hn => hn.elim) (by rw [reserveRequest_eq_sum])
    exact ⟨st, hst, hlen⟩
  · intro done rest P hp
    subst hp
    have hK := reserveRequest_eq_sum (done ++ P :: rest)
    rw [sum_append_cons] at hK
    by_cases hP0 : P.preds.length = 0
    · obtain ⟨s0, h0, -⟩ := refineTo_any False (reserveRequest (done ++ P :: rest)) preds
        done h.inits (fun hn => hn.elim) (by omega)
      have h1 := processPattern_empty s0 P (List.length_eq_zero.1 hP0)
      exact ⟨s0, freshCache s0, h0, h1, refineTo_snoc h0 h1, le_refl _, Nat.le_add_right _ _⟩
    · obtain ⟨s0, h0, hI0, -, hle0, hc0, -⟩ := refineTo_room False
        (reserveRequest (done ++ P :: rest)) preds done h.inits (fun hn => hn.elim)
        (by omega)
      obtain ⟨s1, h1, -, hge, hle, -⟩ := preds_any False hI0 P P.preds (h P (by simp))
        (fun hn => hn.elim) (by omega)
      exact ⟨s0, s1, h0, h1, refineTo_snoc h0 h1, hge, hle⟩

/-- C9. Single child per splitter: at the start, after every move step and
after the last pattern, no two distinct nodes have the same parent and the
same originating pattern. -/
theorem C9_single_child (preds : List Predicate) (patterns : List Pattern)
    (h : MembersWithin preds patterns) (hs : SetLike patterns) :
    SingleChild (initState (reserveRequest patterns) preds).nodes ∧
    (∀ (done rest : List Pattern) (P : Pattern) (visited todo : List Predicate),
      patterns = done ++ P :: rest → P.preds = visited ++ todo →
      ∃ st, stateAt (reserveRequest patterns) preds done P visited = some st ∧
        SingleChild st.nodes) ∧
    (∃ st, refine preds patterns = some st ∧ SingleChild st.nodes) := by
  refine ⟨SingleChild_initState _ preds, ?_, ?_⟩
  · intro done rest P visited todo hp hv
    subst hp
    have hK := reserveRequest_eq_sum (done ++ P :: rest)
    rw [sum_append_cons] at hK
    have hPm : P ∈ done ++ P :: rest := by simp
    have hlen : P.preds.length = visited.length + todo.length := by
      rw [hv, List.length_append]
    have hsub : ∀ e ∈ visited, e ∈ P.preds := fun e he => by
      rw [hv]; exact List.mem_append_left _ he
    have hsd : SetLike done := fun Q hQ => hs Q (List.mem_append_left _ hQ)
    by_cases hv0 : visited.length = 0
    · obtain ⟨s0, h0, -, -, -, hsc⟩ := refineTo_any True
        (reserveRequest (done ++ P :: rest)) preds done h.inits (fun _ => hsd) (by omega)
      refine ⟨freshCache s0, ?_, hsc trivial⟩
      rw [List.length_eq_zero.1 hv0]
      simp [stateAt, h0, processPreds]
    · obtain ⟨s0, h0, hI0, -, hle0, hc0, hstr⟩ := refineTo_room True
        (reserveRequest (done ++ P :: rest)) preds done h.inits (fun _ => hsd) (by omega)
      have hnd : visited.Nodup := by
        have := hs P hPm
        rw [hv] at this
        exact (List.nodup_append.1 this).1
      obtain ⟨st, hrun, -, -, -, hsc⟩ := preds_any True hI0 P visited
        (fun e he => h P hPm e (hsub e he))
        (fun _ => ⟨(hstr trivial).1, (hstr trivial).2, hnd, hsub⟩) (by omega)
      exact ⟨st, by simp [stateAt, h0, hrun], hsc trivial⟩
  · obtain ⟨st, hst, -, -, -, hsc⟩ := refineTo_any True (reserveRequest patterns) preds
      patterns h (fun _ => hs) (by rw [reserveRequest_eq_sum])
    exact ⟨st, hst, hsc trivial⟩

/-! ## The demonstration and the reservation -/

/-- C5. The demonstration of `main`: universe `A..E`, patterns `P1`, `P2`,
`P3` in this order; the report has the four lines `( P3 ): [ E ]`,
`( P3 P2 ): [ D ]`, `( P3 P1 ): [ C ]`, `( P2 P1 ): [ A B ]`. -/
theorem C5_demo_report :
    rlcs demoPreds demoPatterns = some
      [⟨[patP3], {predE}⟩, ⟨[patP3, patP2], {predD}⟩, ⟨[patP3, patP1], {predC}⟩,
       ⟨[patP2, patP1], {predA, predB}⟩] := by
  have h1 : (rlcs demoPreds demoPatterns).isSome = true := by decide
  have h2 : (rlcs demoPreds demoPatterns).getD [] =
      [⟨[patP3], {predE}⟩, ⟨[patP3, patP2], {predD}⟩, ⟨[patP3, patP1], {predC}⟩,
       ⟨[patP2, patP1], {predA, predB}⟩] := by decide
  obtain ⟨rows, hrows⟩ := Option.isSome_iff_exists.1 h1
  rw [hrows] at h2 ⊢
  simpa using h2

/-- C7. With the single predicate `A` and the single pattern `P1 = {A}` the
first loop computes `K = 1` and `nodes.reserve(1)` is called, yet the run
creates two nodes (the root and the child for `P1`): the request is one short
of `1 + K`. -/
theorem C7_reserve_one_short :
    reserveRequest [⟨"P1", [predA]⟩] = 1 ∧
    (refine [predA] [⟨"P1", [predA]⟩]).map (fun st => st.nodes.length) = some 2 ∧
    ¬ (1 + ([(⟨"P1", [predA]⟩ : Pattern)].map fun P => P.preds.length).sum ≤
        reserveRequest [⟨"P1", [predA]⟩]) := by
  decide

/-- The node-count bound on the demonstration, on the pass of `P2`, and on the
run of `Q1 = {A}` over the universe `{A}`, whose one member visit finds the
buffer full. -/
theorem C8_node_count_bound_witness :
    MembersWithin demoPreds demoPatterns ∧ MembersWithin [predA] [patQ1] ∧
    (∃ st, refine demoPreds demoPatterns = some st ∧
      st.nodes.length ≤ 1 + (demoPatterns.map fun P => P.preds.length).sum) ∧
    (∃ s0 s1, refineTo (reserveRequest demoPatterns) demoPreds [patP1] = some s0 ∧
      processPattern s0 patP2 = some s1 ∧
      refineTo (reserveRequest demoPatterns) demoPreds ([patP1] ++ [patP2]) = some s1 ∧
      s0.nodes.length ≤ s1.nodes.length ∧
      s1.nodes.length ≤ s0.nodes.length + patP2.preds.length) ∧
    (∃ st, refine [predA] [patQ1] = some st ∧
      st.nodes.length ≤ 1 + ([patQ1].map fun P => P.preds.length).sum) :=
  ⟨by decide, by decide,
   (C8_node_count_bound demoPreds demoPatterns (by decide)).1,
   (C8_node_count_bound demoPreds demoPatterns (by decide)).2
     [patP1] [patP3] patP2 rfl,
   (C8_node_count_bound [predA] [patQ1] (by decide)).1⟩

/-- Single child per splitter on the demonstration: at the start, in the pass
of `P3` after `C` and `D` have been moved, and at the end; and at the end of
the run of `Q1 = {A}` over the universe `{A}`, whose one member visit finds the
buffer full. -/
theorem C9_single_child_witness :
    MembersWithin demoPreds demoPatterns ∧ SetLike demoPatterns ∧
    MembersWithin [predA] [patQ1] ∧ SetLike [patQ1] ∧
    SingleChild (initState (reserveRequest demoPatterns) demoPreds).nodes ∧
    (∃ st, stateAt (reserveRequest demoPatterns) demoPreds [patP1, patP2] patP3
        [predC, predD] = some st ∧ SingleChild st.nodes) ∧
    (∃ st, refine demoPreds demoPatterns = some st ∧ SingleChild st.nodes) ∧
    (∃ st, refine [predA] [patQ1] = some st ∧ SingleChild st.nodes) :=
  ⟨by decide, by decide, by decide, by decide,
   (C9_single_child demoPreds demoPatterns (by decide) (by decide)).1,
   (C9_single_child demoPreds demoPatterns (by decide) (by decide)).2.1
     [patP1, patP2] [] patP3 [predC, predD] [predE] rfl rfl,
   (C9_single_child demoPreds demoPatterns (by decide) (by decide)).2.2,
   (C9_single_child [predA] [patQ1] (by decide) (by decide)).2.2⟩

theorem traceWalk_freshCache (st : LoopState) :
    ∀ (fuel cur : Nat), traceWalk (freshCache st) fuel cur = traceWalk st fuel cur := by
  intro fuel
  induction fuel with
  | zero =>
    intro cur
    conv_lhs => rw [traceWalk]
    conv_rhs => rw [traceWalk]
    rfl
  | succ fuel ih =>
    intro cur
    conv_lhs => rw [traceWalk]
    conv_rhs => rw [traceWalk]
    have hn : (freshCache st).nodeAt cur = st.nodeAt cur := rfl
    rw [hn]
    rcases st.nodeAt cur with _ | node
    · rfl
    · rcases hd : node.diff with _ | pattern
      · simp only [hd]
      · rcases hp : node.parent with _ | parent
        · simp only [hd, hp]
        · simp only [hd, hp, ih]

theorem report_freshCache (st : LoopState) : report (freshCache st) = report st := by
  have hstep : reportStep (freshCache st) = reportStep st := by
    funext out i
    unfold reportStep
    have hn : (freshCache st).nodes = st.nodes := rfl
    have hb : (freshCache st).base = st.base := rfl
    rw [hn, hb, traceWalk_freshCache]
  unfold report
  rw [hstep]
  rfl

theorem processPattern_freshCache (st : LoopState) (P : Pattern) :
    processPattern (freshCache st) P = processPattern st P := rfl

/-- The patterns after an empty one see the same state as without it, up to
the cache, which every pass starts by emptying and the report does not read. -/
theorem processPatterns_freshCache (st : LoopState) (l : List Pattern) :
    ((processPatterns (freshCache st) l).map (fun s => s.nodes) =
      (processPatterns st l).map fun s => s.nodes) ∧
    ((processPatterns (freshCache st) l).bind report =
      (processPatterns st l).bind report) := by
  cases l with
  | nil => exact ⟨rfl, report_freshCache st⟩
  | cons P rest =>
    simp only [processPatterns, List.foldlM_cons, processPattern_freshCache]
    exact ⟨trivial, trivial⟩

theorem reserveRequest_skip (E : Pattern) (hE : E.preds = []) (l1 l2 : List Pattern) :
    reserveRequest (l1 ++ E :: l2) = reserveRequest (l1 ++ l2) := by
  rw [reserveRequest_eq_sum, reserveRequest_eq_sum]
  simp [hE]

/-- C15. An empty pattern is a no-op: its pass creates no node, leaves every
node and the owner map as they are, and inserting it anywhere in the pattern
sequence leaves the report of `rlcs` unchanged. -/
theorem C15_empty_pattern (E : Pattern) (hE : E.preds = []) :
    (∀ st : LoopState, ∃ st', processPattern st E = some st' ∧
      st'.nodes = st.nodes ∧ st'.occur = st.occur) ∧
    (∀ (preds : List Predicate) (l1 l2 : List Pattern),
      (refine preds (l1 ++ E :: l2)).map (fun s => s.nodes) =
        (refine preds (l1 ++ l2)).map (fun s => s.nodes) ∧
      rlcs preds (l1 ++ E :: l2) = rlcs preds (l1 ++ l2)) := by
  refine ⟨fun st => ⟨freshCache st, processPattern_empty st E hE, rfl, rfl⟩, ?_⟩
  intro preds l1 l2
  simp only [rlcs, refine, refineTo, reserveRequest_skip E hE l1 l2, processPatterns_append]
  cases h1 : processPatterns (initState (reserveRequest (l1 ++ l2)) preds) l1 with
  | none => exact ⟨rfl, rfl⟩
  | some s =>
    simp only [Option.bind]
    have : processPatterns s (E :: l2) = processPatterns (freshCache s) l2 := by
      simp only [processPatterns, List.foldlM_cons, processPattern_empty s E hE]
      rfl
    rw [this]
    exact processPatterns_freshCache s l2

/-- The demonstration with an empty pattern `P0` put between `P1` and `P2`. -/
theorem C15_empty_pattern_witness :
    (⟨"P0", []⟩ : Pattern).preds = [] ∧
    rlcs demoPreds ([patP1] ++ ⟨"P0", []⟩ :: [patP2, patP3]) =
      rlcs demoPreds ([patP1] ++ [patP2, patP3]) :=
  ⟨rfl, ((C15_empty_pattern ⟨"P0", []⟩ rfl).2 demoPreds [patP1] [patP2, patP3]).2⟩

/-! ## The uniquing stores -/

theorem findEntry_append {κ β : Type} [DecidableEq κ] (key : κ) (l : List (κ × β))
    (k : κ) (v : β) :
    findEntry key (l ++ [(k, v)]) =
      match findEntry key l with
      | some x => some x
      | none => if k = key then some v else none := by
  induction l with
  | nil => simp [findEntry]
  | cons kv rest ih =>
    simp only [List.cons_append, findEntry]
    by_cases h : kv.1 = key
    · simp [h]
    · simp only [h, if_false]; exact ih

theorem findEntry_mem {κ β : Type} [DecidableEq κ] {key : κ} {l : List (κ × β)}
    {v : β} (h : findEntry key l = some v) : (key, v) ∈ l := by
  induction l with
  | nil => simp [findEntry] at h
  | cons kv rest ih =>
    simp only [findEntry] at h
    by_cases hk : kv.1 = key
    · simp only [hk, if_true, Option.some.injEq] at h
      have : kv = (key, v) := by rw [← hk, ← h]
      simp [this]
    · simp only [hk, if_false] at h
      exact List.mem_cons_of_mem _ (ih h)

theorem PatternUniquer.get_keeps (u : PatternUniquer) (name : String)
    (preds : List Predicate) {k : String} {p : Pattern}
    (h : findEntry k u.patterns = some p) :
    findEntry k (u.get name preds).2.patterns = some p := by
  unfold PatternUniquer.get
  cases hf : findEntry name u.patterns with
  | some q => simpa using h
  | none =>
    simp only
    rw [findEntry_append, h]

theorem PatternUniquer.register_keeps (calls : List (String × List Predicate)) :
    ∀ (u : PatternUniquer) {k : String} {p : Pattern},
      findEntry k u.patterns = some p →
      findEntry k (u.register calls).patterns = some p := by
  induction calls with
  | nil => intro u k p h; exact h
  | cons c rest ih =>
    intro u k p h
    exact ih (u.get c.1 c.2).2 (PatternUniquer.get_keeps u c.1 c.2 h)

/-- C11. Idempotent pattern registration: `get` on a registered name returns
the stored pattern and leaves the catalog as it is; `get` on a new name adds
exactly one pattern with that name and that member set and returns it; and a
name keeps the member set of its first registration through any later calls. -/
theorem C11_idempotent_registration (u : PatternUniquer) (name : String)
    (s1 s2 : List Predicate) :
    (∀ p, findEntry name u.patterns = some p → u.get name s2 = (p, u)) ∧
    (findEntry name u.patterns = none →
      (u.get name s1).1 = ⟨name, s1⟩ ∧
      (u.get name s1).2.patterns = u.patterns ++ [(name, ⟨name, s1⟩)] ∧
      (u.get name s1).2.size = u.size + 1 ∧
      (∀ k p, findEntry k u.patterns = some p →
        findEntry k (u.get name s1).2.patterns = some p) ∧
      ∀ calls : List (String × List Predicate),
        ((u.get name s1).2.register calls).get name s2 =
          (⟨name, s1⟩, (u.get name s1).2.register calls)) := by
  have hit : ∀ (v : PatternUniquer) (p : Pattern),
      findEntry name v.patterns = some p → v.get name s2 = (p, v) := by
    intro v p h
    simp [PatternUniquer.get, h]
  refine ⟨hit u, ?_⟩
  intro hnone
  have hget : u.get name s1 = (⟨name, s1⟩, ⟨u.patterns ++ [(name, ⟨name, s1⟩)]⟩) := by
    simp [PatternUniquer.get, hnone]
  refine ⟨by rw [hget], by rw [hget], ?_, ?_, ?_⟩
  · rw [hget]; simp [PatternUniquer.size]
  · intro k p h
    exact PatternUniquer.get_keeps u name s1 h
  · intro calls
    apply hit
    apply PatternUniquer.register_keeps
    rw [hget, findEntry_append, hnone]
    simp

/-- Idempotent registration on the catalog of `main`: `P1` again with another
member set, and `P4` for the first time. -/
theorem C11_idempotent_registration_witness :
    findEntry "P1" (PatternUniquer.mk [("P1", patP1), ("P2", patP2)]).patterns
        = some patP1 ∧
    (PatternUniquer.mk [("P1", patP1), ("P2", patP2)]).get "P1" [predE] =
      (patP1, PatternUniquer.mk [("P1", patP1), ("P2", patP2)]) ∧
    findEntry "P4" (PatternUniquer.mk [("P1", patP1), ("P2", patP2)]).patterns
        = none ∧
    (((PatternUniquer.mk [("P1", patP1), ("P2", patP2)]).get "P4" [predD]).2.register
        [("P3", [predC]), ("P4", [predA])]).get "P4" [predE] =
      (⟨"P4", [predD]⟩,
        ((PatternUniquer.mk [("P1", patP1), ("P2", patP2)]).get "P4" [predD]).2.register
          [("P3", [predC]), ("P4", [predA])]) :=
  ⟨by decide,
   (C11_idempotent_registration ⟨[("P1", patP1), ("P2", patP2)]⟩ "P1" [predD] [predE]).1
     patP1 (by decide),
   by decide,
   ((C11_idempotent_registration ⟨[("P1", patP1), ("P2", patP2)]⟩ "P4" [predD] [predE]).2
     (by decide)).2.2.2.2 [("P3", [predC]), ("P4", [predA])]⟩

/-- C12. Predicate uniquing, for catalogs as `get` builds them (every
predicate stored under its representation, which holds of the empty catalog
and is kept by `get`): `get r` returns a predicate of representation `r`; a
second `get r` returns the same predicate and the same catalog; two calls
return the same predicate only for the same representation; on a registered
representation the catalog is unchanged, on a new one it grows by exactly one
entry and keeps every earlier one. -/
theorem C12_predicate_uniquing (u v : PredicateUniquer) (hu : u.Keyed)
    (hv : v.Keyed) (r r1 r2 : Int) :
    (PredicateUniquer.mk []).Keyed ∧
    (u.get r).2.Keyed ∧
    (u.get r).1.repr = r ∧
    (u.get r).2.get r = ((u.get r).1, (u.get r).2) ∧
    ((u.get r1).1 = (v.get r2).1 → r1 = r2) ∧
    (∀ p, findEntry r u.preds = some p → u.get r = (p, u)) ∧
    (findEntry r u.preds = none →
      (u.get r).2.size = u.size + 1 ∧
      (u.get r).2.preds = u.preds ++ [(r, ⟨r⟩)] ∧
      ∀ k p, findEntry k u.preds = some p →
        findEntry k (u.get r).2.preds = some p) := by
  have hrepr : ∀ (w : PredicateUniquer), w.Keyed → ∀ x : Int, (w.get x).1.repr = x := by
    intro w hw x
    unfold PredicateUniquer.get
    cases hf : findEntry x w.preds with
    | some p => exact hw _ (findEntry_mem hf)
    | none => rfl
  have hhit : ∀ p, findEntry r u.preds = some p → u.get r = (p, u) := by
    intro p h
    simp [PredicateUniquer.get, h]
  have hmiss : findEntry r u.preds = none →
      u.get r = (⟨r⟩, ⟨u.preds ++ [(r, ⟨r⟩)]⟩) := by
    intro h
    simp [PredicateUniquer.get, h]
  refine ⟨?_, ?_, hrepr u hu r, ?_, ?_, hhit, ?_⟩
  · intro kv hkv
    cases hkv
  · cases hf : findEntry r u.preds with
    | some p => rw [hhit p hf]; exact hu
    | none =>
      rw [hmiss hf]
      intro kv hkv
      rcases List.mem_append.1 hkv with h | h
      · exact hu kv h
      · simp only [List.mem_singleton] at h
        subst h
        rfl
  · cases hf : findEntry r u.preds with
    | some p => rw [hhit p hf]; exact hhit p hf
    | none =>
      rw [hmiss hf]
      have : findEntry r (u.preds ++ [(r, (⟨r⟩ : Predicate))]) = some ⟨r⟩ := by
        rw [findEntry_append, hf]; simp
      simp [PredicateUniquer.get, this]
  · intro h
    rw [← hrepr u hu r1, ← hrepr v hv r2, h]
  · intro hf
    rw [hmiss hf]
    refine ⟨by simp [PredicateUniquer.size], rfl, ?_⟩
    intro k p hk
    rw [findEntry_append, hk]

/-- Predicate uniquing on the catalog of `main` after `get('A')` and
`get('B')`: `get('C')` and `get('A')`. -/
theorem C12_predicate_uniquing_witness :
    (PredicateUniquer.mk [(65, predA), (66, predB)]).Keyed ∧
    ((PredicateUniquer.mk [(65, predA), (66, predB)]).get 67).1.repr = 67 ∧
    ((PredicateUniquer.mk [(65, predA), (66, predB)]).get 67).2.get 67 =
      (((PredicateUniquer.mk [(65, predA), (66, predB)]).get 67).1,
       ((PredicateUniquer.mk [(65, predA), (66, predB)]).get 67).2) ∧
    (PredicateUniquer.mk [(65, predA), (66, predB)]).get 65 =
      (predA, PredicateUniquer.mk [(65, predA), (66, predB)]) :=
  ⟨by decide,
   (C12_predicate_uniquing ⟨[(65, predA), (66, predB)]⟩ ⟨[(65, predA), (66, predB)]⟩
     (by decide) (by decide) 67 65 66).2.2.1,
   (C12_predicate_uniquing ⟨[(65, predA), (66, predB)]⟩ ⟨[(65, predA), (66, predB)]⟩
     (by decide) (by decide) 67 65 66).2.2.2.1,
   (C12_predicate_uniquing ⟨[(65, predA), (66, predB)]⟩ ⟨[(65, predA), (66, predB)]⟩
     (by decide) (by decide) 65 65 66).2.2.2.2.2.1 predA (by decide)⟩

/-! ## Runs in which every member visit is a cache miss

Such a run creates `K + 1` nodes in a buffer reserved for `K`: the last
`emplace_back` moves the vector, and the pointers taken before it dangle. -/

theorem exists_of_decide {α : Type} (o : Option α) (p : α → Prop) [DecidablePred p]
    (h : (o.map fun a => decide (p a)) = some true) : ∃ a, o = some a ∧ p a := by
  cases o with
  | none => cases h
  | some a =>
    refine ⟨a, rfl, ?_⟩
    simpa using h

theorem nodeAt_below (st : LoopState) (addr : Nat) (h : addr < st.base) :
    st.nodeAt addr = none := by
  unfold LoopState.nodeAt
  rw [if_neg (by omega)]

/-- A trace walk that starts at a node whose parent pointer lies below the
buffer fails whatever the fuel. -/
theorem traceWalk_dangling (st : LoopState) (cur : Nat) (node : ReferenceNode)
    (pattern : Pattern) (parent : Nat) (hn : st.nodeAt cur = some node)
    (hd : node.diff = some pattern) (hp : node.parent = some parent)
    (hb : parent < st.base) : ∀ fuel, traceWalk st fuel cur = none := by
  intro fuel
  cases fuel with
  | zero =>
    rw [traceWalk]
    simp only [hn, hd]
  | succ fuel =>
    rw [traceWalk]
    simp only [hn, hd, hp]
    cases fuel with
    | zero =>
      rw [traceWalk]
      simp only [nodeAt_below st parent hb, Option.map_none']
    | succ fuel =>
      rw [traceWalk]
      simp only [nodeAt_below st parent hb, Option.map_none']

theorem nodeAt_base (st : LoopState) (i : Nat) :
    st.nodeAt (st.base + i) = st.nodes[i]? := by
  unfold LoopState.nodeAt
  rw [if_pos (Nat.le_add_right _ _), Nat.add_sub_cancel_left]

/-- A trace walk that starts at a node without originating pattern stops at
once, whatever the fuel. -/
theorem traceWalk_root (st : LoopState) (cur : Nat) (node : ReferenceNode)
    (hn : st.nodeAt cur = some node) (hd : node.diff = none) :
    ∀ fuel, traceWalk st fuel cur = some [] := by
  intro fuel
  rw [traceWalk]
  simp only [hn, hd]

/-- The run on the single predicate `A` and the single pattern `Q1 = {A}`: the
one member visit finds the buffer of one element full; the vector moves from
address `0` to address `1`, the erasure of `A` from the old root is lost, and
the child keeps the old address of the root as its parent. -/
theorem run_single :
    ∃ st, refine [predA] [patQ1] = some st ∧
      st.nodes = [⟨none, none, {predA}⟩, ⟨some 0, some patQ1, {predA}⟩] ∧
      st.base = 1 ∧ st.occur predA = some 2 ∧ report st = none ∧
      (∀ fuel, traceWalk st fuel (st.base + 0) = some []) ∧
      ∀ fuel, traceWalk st fuel (st.base + 1) = none := by
  obtain ⟨st, hst, hn, hb, ho, hr⟩ := exists_of_decide (refine [predA] [patQ1])
    (fun st => st.nodes = [⟨none, none, {predA}⟩, ⟨some 0, some patQ1, {predA}⟩] ∧
      st.base = 1 ∧ st.occur predA = some 2 ∧ report st = none) (by decide)
  refine ⟨st, hst, hn, hb, ho, hr, ?_, ?_⟩
  · exact traceWalk_root st _ ⟨none, none, {predA}⟩
      (by rw [nodeAt_base, hn]; rfl) rfl
  · exact traceWalk_dangling st _ ⟨some 0, some patQ1, {predA}⟩ patQ1 0
      (by rw [nodeAt_base, hn]; rfl) rfl rfl (by omega)

/-- C1. With the single predicate `A` and the single pattern `Q1 = {A}` the
run ends with `A` both in the root and in the child created for `Q1`: the
member sets of the nodes are not pairwise disjoint. -/
theorem C1_partition_lost :
    MembersWithin [predA] [patQ1] ∧
    ∃ st, refine [predA] [patQ1] = some st ∧
      st.nodes.map (fun n => n.refs) = [{predA}, {predA}] ∧
      ¬ Partition [predA] st.nodes := by
  refine ⟨by decide, ?_⟩
  obtain ⟨st, hst, hn, -⟩ := run_single
  refine ⟨st, hst, by rw [hn]; rfl, ?_⟩
  rintro ⟨hdisj, -⟩
  have h := hdisj 0 1 _ _ (by rw [hn]; rfl) (by rw [hn]; rfl) (by decide)
  revert h
  decide

/-- C2. With the predicates `A`, `B` and the single pattern `Q1 = {A}` the run
ends with `A` and `B` together in the root, although `Q1` contains `A` and not
`B`. -/
theorem C2_blocks_merged :
    MembersWithin [predA, predB] [patQ1] ∧ SetLike [patQ1] ∧
    ∃ st, refine [predA, predB] [patQ1] = some st ∧
      st.nodes.map (fun n => n.refs) = [{predA, predB}, {predA}] ∧
      SameNode st.nodes predA predB ∧
      ¬ ∀ P ∈ [patQ1], (predA ∈ P.preds ↔ predB ∈ P.preds) := by
  refine ⟨by decide, by decide, ?_⟩
  obtain ⟨st, hst, hn⟩ := exists_of_decide (refine [predA, predB] [patQ1])
    (fun st => st.nodes =
      [⟨none, none, {predA, predB}⟩, ⟨some 0, some patQ1, {predA}⟩]) (by decide)
  refine ⟨st, hst, by rw [hn]; rfl, ?_, by decide⟩
  exact ⟨0, _, by rw [hn]; rfl, by decide, by decide⟩

/-- C3. With the single predicate `A` and the single pattern `Q1 = {A}` the
root still holds `A` at the end and its trace is empty, while `Q1` contains
`A`; the child holds `A` too, and the walk from it follows a parent pointer
into the buffer the vector has left: it yields no trace, whatever the number
of iterations allowed. -/
theorem C3_trace_lost :
    MembersWithin [predA] [patQ1] ∧
    ([patQ1].filter fun P => decide (predA ∈ P.preds)).reverse = [patQ1] ∧
    ∃ st, refine [predA] [patQ1] = some st ∧
      (∃ root, st.nodes[0]? = some root ∧ predA ∈ root.refs ∧
        ∀ fuel, traceWalk st fuel (st.base + 0) = some []) ∧
      (∃ child, st.nodes[1]? = some child ∧ predA ∈ child.refs ∧
        ∀ fuel, traceWalk st fuel (st.base + 1) = none) := by
  refine ⟨by decide, by decide, ?_⟩
  obtain ⟨st, hst, hn, -, -, -, hw0, hw1⟩ := run_single
  exact ⟨st, hst, ⟨_, by rw [hn]; rfl, by decide, hw0⟩, ⟨_, by rw [hn]; rfl, by decide, hw1⟩⟩

/-- C4. With the predicates `A`, `B`, `C` and the patterns `Q1 = {A}`,
`Q2 = {A, B}`: in the order `Q1`, `Q2` the run ends with `B` and `C` together
in the root, in the order `Q2`, `Q1` it ends with `B` and `C` in different
nodes. -/
theorem C4_order_matters :
    MembersWithin [predA, predB, predC] [patQ1, patQ2] ∧
    [patQ1, patQ2].Perm [patQ2, patQ1] ∧
    ∃ s1 s2, refine [predA, predB, predC] [patQ1, patQ2] = some s1 ∧
      refine [predA, predB, predC] [patQ2, patQ1] = some s2 ∧
      s1.nodes.map (fun n => n.refs) = [{predB, predC}, ∅, {predA}, {predB}] ∧
      s2.nodes.map (fun n => n.refs) = [{predC}, {predB}, {predA}] ∧
      SameNode s1.nodes predB predC ∧ ¬ SameNode s2.nodes predB predC := by
  refine ⟨by decide, List.Perm.swap _ _ _, ?_⟩
  obtain ⟨s1, hs1, hn1⟩ := exists_of_decide (refine [predA, predB, predC] [patQ1, patQ2])
    (fun st => st.nodes.map (fun n => n.refs) = [{predB, predC}, ∅, {predA}, {predB}])
    (by decide)
  obtain ⟨s2, hs2, hn2⟩ := exists_of_decide (refine [predA, predB, predC] [patQ2, patQ1])
    (fun st => st.nodes.map (fun n => n.refs) = [{predC}, {predB}, {predA}])
    (by decide)
  have get : ∀ (s : LoopState) (i : Nat) (n : ReferenceNode), s.nodes[i]? = some n →
      (s.nodes.map fun n => n.refs)[i]? = some n.refs := by
    intro s i n h
    rw [List.getElem?_map, h]
    rfl
  refine ⟨s1, s2, hs1, hs2, hn1, hn2, ?_, ?_⟩
  · have h0 : (s1.nodes.map fun n => n.refs)[0]? = some {predB, predC} := by
      rw [hn1]; rfl
    rw [List.getElem?_map] at h0
    obtain ⟨n, hn, hr⟩ := Option.map_eq_some'.1 h0
    exact ⟨0, n, hn, by rw [hr]; decide, by rw [hr]; decide⟩
  · rintro ⟨i, n, hn, hB, hC⟩
    have h := get s2 i n hn
    rw [hn2] at h
    match i, h with
    | 0, h =>
      simp only [List.getElem?_cons_zero, Option.some.injEq] at h
      rw [← h] at hB
      revert hB
      decide
    | 1, h =>
      simp only [List.getElem?_cons_succ, List.getElem?_cons_zero, Option.some.injEq] at h
      rw [← h] at hC
      revert hC
      decide
    | 2, h =>
      simp only [List.getElem?_cons_succ, List.getElem?_cons_zero, Option.some.injEq] at h
      rw [← h] at hC
      revert hC
      decide
    | i + 3, h =>
      simp at h

/-- C6. With the single predicate `A` and the single pattern `Q1 = {A}` two
nodes hold `A` when the reporting loop starts, and the loop does not get to
print: its first trace walk, from the child, leaves the vector whatever the
number of iterations allowed. -/
theorem C6_no_report :
    MembersWithin [predA] [patQ1] ∧
    rlcs [predA] [patQ1] = none ∧
    ∃ st, refine [predA] [patQ1] = some st ∧
      (st.nodes.filter fun n => decide (predA ∈ n.refs)).length = 2 ∧
      ∀ fuel, traceWalk st fuel (st.base + 1) = none := by
  refine ⟨by decide, by decide, ?_⟩
  obtain ⟨st, hst, hn, -, -, -, -, hw1⟩ := run_single
  exact ⟨st, hst, by rw [hn]; decide, hw1⟩

/-- C13. With the single predicate `A` and the single pattern `Q1 = {A}` the
root ends with the member `A`, which belongs to `Q1`, and the reporting loop
yields no line: the trace walk from the child leaves the vector whatever the
number of iterations allowed. -/
theorem C13_root_keeps_matched :
    MembersWithin [predA] [patQ1] ∧ predA ∈ patQ1.preds ∧
    ∃ st, refine [predA] [patQ1] = some st ∧
      (∃ root, st.nodes[0]? = some root ∧ root.refs = {predA}) ∧
      report st = none ∧ ∀ fuel, traceWalk st fuel (st.base + 1) = none := by
  refine ⟨by decide, by decide, ?_⟩
  obtain ⟨st, hst, hn, -, -, hr, -, hw1⟩ := run_single
  exact ⟨st, hst, ⟨_, by rw [hn]; rfl, rfl⟩, hr, hw1⟩

/-- C14. With the universe `{A}` and the single pattern `Q1 = {A}`, which is
the whole universe, the root is not empty at the end and the report is not the
line of `Q1` with the member `A`. -/
theorem C14_singleton_universe :
    [predA] ≠ [] ∧ patQ1.preds.toFinset = [predA].toFinset ∧
    (∃ st, refine [predA] [patQ1] = some st ∧
      ∃ root, st.nodes[0]? = some root ∧ root.refs ≠ ∅) ∧
    rlcs [predA] [patQ1] ≠ some [⟨[patQ1], {predA}⟩] := by
  refine ⟨by decide, by decide, ?_, ?_⟩
  · obtain ⟨st, hst, hn, -⟩ := run_single
    exact ⟨st, hst, _, by rw [hn]; rfl, by decide⟩
  · have h : rlcs [predA] [patQ1] = none := by decide
    rw [h]
    exact fun h => Option.noConfusion h

/-- C17. With the predicates `A`, `B` and the patterns `Q1 = {A}`,
`Q2 = {A, B}`: when the pass of `Q2` visits `A` before `B` the root ends with
the member `B` and the empty trace; when it visits `B` before `A` the root ends
empty, and no non-empty node has a trace, whatever the number of iterations
allowed. -/
theorem C17_visit_order_matters :
    MembersWithin [predA, predB] [patQ1, patQ2] ∧
    List.Forall₂ (fun P Q : Pattern => P.name = Q.name ∧ P.preds.Perm Q.preds)
      [patQ1, patQ2] [patQ1, patQ2r] ∧
    ∃ s1 s2, refine [predA, predB] [patQ1, patQ2] = some s1 ∧
      refine [predA, predB] [patQ1, patQ2r] = some s2 ∧
      s1.nodes.map (fun n => n.refs) = [{predB}, ∅, {predA}, {predB}] ∧
      s2.nodes.map (fun n => n.refs) = [∅, {predA}, {predB}, {predA}] ∧
      (∀ fuel, traceWalk s1 fuel (s1.base + 0) = some []) ∧
      ∀ (i : Nat) (n : ReferenceNode), s2.nodes[i]? = some n → n.refs ≠ ∅ →
        ∀ fuel, traceWalk s2 fuel (s2.base + i) = none := by
  refine ⟨by decide, ?_, ?_⟩
  · exact List.Forall₂.cons ⟨rfl, List.Perm.refl _⟩
      (List.Forall₂.cons ⟨rfl, List.Perm.swap _ _ _⟩ List.Forall₂.nil)
  · obtain ⟨s1, hs1, h1⟩ := exists_of_decide (refine [predA, predB] [patQ1, patQ2])
      (fun st => st.nodes = [⟨none, none, {predB}⟩, ⟨some 0, some patQ1, ∅⟩,
        ⟨some 1, some patQ2, {predA}⟩, ⟨some 0, some patQ2, {predB}⟩]) (by decide)
    obtain ⟨s2, hs2, h2, hb2⟩ := exists_of_decide (refine [predA, predB] [patQ1, patQ2r])
      (fun st => st.nodes = [⟨none, none, ∅⟩, ⟨some 0, some patQ1, {predA}⟩,
        ⟨some 0, some patQ2r, {predB}⟩, ⟨some 1, some patQ2r, {predA}⟩] ∧ st.base = 3)
      (by decide)
    refine ⟨s1, s2, hs1, hs2, by rw [h1]; rfl, by rw [h2]; rfl, ?_, ?_⟩
    · exact traceWalk_root s1 _ ⟨none, none, {predB}⟩
        (by rw [nodeAt_base, h1]; rfl) rfl
    · intro i n hn hne
      have hat : s2.nodeAt (s2.base + i) = some n := by rw [nodeAt_base]; exact hn
      rw [h2] at hn
      match i, hn with
      | 0, hn =>
        simp only [List.getElem?_cons_zero, Option.some.injEq] at hn
        rw [← hn] at hne
        exact (hne rfl).elim
      | 1, hn =>
        simp only [List.getElem?_cons_succ, List.getElem?_cons_zero, Option.some.injEq] at hn
        exact traceWalk_dangling s2 _ n patQ1 0 hat (by rw [← hn]) (by rw [← hn])
          (by omega)
      | 2, hn =>
        simp only [List.getElem?_cons_succ, List.getElem?_cons_zero, Option.some.injEq] at hn
        exact traceWalk_dangling s2 _ n patQ2r 0 hat (by rw [← hn]) (by rw [← hn])
          (by omega)
      | 3, hn =>
        simp only [List.getElem?_cons_succ, List.getElem?_cons_zero, Option.some.injEq] at hn
        exact traceWalk_dangling s2 _ n patQ2r 1 hat (by rw [← hn]) (by rw [← hn])
          (by omega)
      | i + 4, hn =>
        simp at hn

/-- C18. With the single predicate `A` and the single pattern `Q1 = {A}` both
nodes are non-empty at the end; the reporting loop starts at the node created
last, whose trace walk leaves the vector whatever the number of iterations
allowed, and there is no sequence of rows. -/
theorem C18_rows_undefined :
    MembersWithin [predA] [patQ1] ∧
    ∃ st, refine [predA] [patQ1] = some st ∧
      st.nodes.map (fun n => decide (n.refs = ∅)) = [false, false] ∧
      (∀ fuel, traceWalk st fuel (st.base + 1) = none) ∧
      reportStep st [] 1 = none ∧ report st = none := by
  refine ⟨by decide, ?_⟩
  obtain ⟨st, hst, hn, hb, -, hr, -, hw1⟩ := run_single
  refine ⟨st, hst, by rw [hn]; decide, hw1, ?_, hr⟩
  have h1 : st.nodes[1]? = some ⟨some 0, some patQ1, {predA}⟩ := by rw [hn]; rfl
  unfold reportStep
  rw [h1]
  simp only [hw1]
  decide

/-- C19. With the single predicate `A` and the single pattern `Q1 = {A}` the
run ends with `occur[A]` the address of the child while the root still has the
member `A`: the owner map does not agree with the member sets. -/
theorem C19_owner_stale :
    MembersWithin [predA] [patQ1] ∧
    ∃ st, refine [predA] [patQ1] = some st ∧
      (∃ root, st.nodes[0]? = some root ∧ predA ∈ root.refs) ∧
      st.occur predA = some (st.base + 1) ∧
      ¬ OwnerConsistent [predA] st := by
  refine ⟨by decide, ?_⟩
  obtain ⟨st, hst, hn, hb, ho, -⟩ := run_single
  refine ⟨st, hst, ⟨_, by rw [hn]; rfl, by decide⟩, by rw [ho, hb], ?_⟩
  rintro ⟨-, h⟩
  have h0 := (h predA 0 _ (by rw [hn]; rfl)).2 (by decide)
  rw [ho, hb] at h0
  cases h0

/-- C20. With the single predicate `A` and the single pattern `Q1 = {A}` the
parent pointer of the child is address `0`, which after the move of the vector
is the address of no node: the trace walk from the child follows it and fails,
whatever the number of iterations allowed. -/
theorem C20_parent_dangles :
    ∃ st, refine [predA] [patQ1] = some st ∧
      (∃ child, st.nodeAt (st.base + 1) = some child ∧ child.parent = some 0 ∧
        child.diff = some patQ1) ∧
      st.nodeAt 0 = none ∧
      ∀ fuel, traceWalk st fuel (st.base + 1) = none := by
  obtain ⟨st, hst, hn, hb, -, -, -, hw1⟩ := run_single
  have hchild : st.nodeAt (st.base + 1) = some ⟨some 0, some patQ1, {predA}⟩ := by
    rw [nodeAt_base, hn]
    rfl
  exact ⟨st, hst, ⟨_, hchild, rfl, rfl⟩, nodeAt_below st 0 (by omega), hw1⟩

end Rlcs
